import Mathlib

/-!
Verification of the three SAT decision procedures of this repository
(`DavisPutnamLogemannLoveland_SAT_Implementation.py`,
`DavisPutnam_SAT_Implementation.py`, `Resolution_SAT_Implementation.py`)
against their natural-language specification.

The Python code is shallowly embedded: Python dicts become association
lists (most recent binding first, matching `{**asg, var: val}` update),
Python sets and frozensets become `Finset`, Python lists become `List`,
and the two unbounded loops (unit propagation inside DPLL, resolution
saturation) take an explicit fuel parameter for which a sufficient bound
is proved.  Where Python iterates over an (unordered) set, the embedding
fixes a deterministic order; this is noted at each such definition.
-/

namespace SatRepo

/-- Assignment: a Python dict `{var: bool}`, modelled as an association list
where the most recent binding shadows earlier ones. -/
abbrev Assignment := List (Nat × Bool)

/-- Dict lookup: first binding wins (later `insertA` entries are consed on). -/
def lookupA : Assignment → Nat → Option Bool
  | [], _ => none
  | (k, b) :: rest, v => if k = v then some b else lookupA rest v

/-- Dict update `{**asg, v: b}`: the new binding shadows any earlier one. -/
def insertA (a : Assignment) (v : Nat) (b : Bool) : Assignment := (v, b) :: a

/-- `abs(literal)` of the Python code. -/
def litVar (l : Int) : Nat := l.natAbs

/-- `literal > 0` of the Python code. -/
def litSign (l : Int) : Bool := decide (0 < l)

/-- A total valuation satisfies a literal when it assigns the literal's
variable the literal's polarity. -/
def litHolds (τ : Nat → Bool) (l : Int) : Prop := τ (litVar l) = litSign l

instance (τ : Nat → Bool) (l : Int) : Decidable (litHolds τ l) :=
  inferInstanceAs (Decidable (_ = _))

/-- A clause (list form) is satisfied when some literal of it holds. -/
def clauseSatL (τ : Nat → Bool) (c : List Int) : Prop := ∃ l ∈ c, litHolds τ l

/-- A clause (finset form) is satisfied when some literal of it holds. -/
def clauseSatF (τ : Nat → Bool) (c : Finset Int) : Prop := ∃ l ∈ c, litHolds τ l

/-- All clauses of a CNF formula (list-of-lists form) are satisfied. -/
def formulaSatL (τ : Nat → Bool) (F : List (List Int)) : Prop := ∀ c ∈ F, clauseSatL τ c

/-- All clauses of a list of finset clauses are satisfied. -/
def formulaSatS (τ : Nat → Bool) (cs : List (Finset Int)) : Prop := ∀ c ∈ cs, clauseSatF τ c

/-- All clauses of a finset of finset clauses are satisfied. -/
def formulaSatW (τ : Nat → Bool) (W : Finset (Finset Int)) : Prop := ∀ c ∈ W, clauseSatF τ c

/-- Satisfiability of a CNF formula given as a list of clauses of integer
literals: some assignment of booleans to variables makes every clause
contain at least one agreeing literal. -/
def Satisfiable (F : List (List Int)) : Prop := ∃ τ, formulaSatL τ F

/-! ### DPLL: `_dpll_apply_assignment_and_propagate`, step A (simplification)

One clause is simplified against the current assignment: literals whose
variable is assigned agreeing sign satisfy the clause (`none` = drop it),
literals assigned the opposite sign are struck, unassigned literals kept. -/

def simplifyClause (asg : Assignment) : List Int → Option (List Int)
  | [] => some []
  | l :: ls =>
    match lookupA asg (litVar l) with
    | some b => if b = litSign l then none else simplifyClause asg ls
    | none => (simplifyClause asg ls).map (l :: ·)

/-- One simplification pass over all clauses; `none` signals the conflict
of some clause simplifying to the empty clause. -/
def simplifyPass (asg : Assignment) : List (List Int) → Option (List (List Int))
  | [] => some []
  | c :: rest =>
    match simplifyClause asg c with
    | none => simplifyPass asg rest
    | some [] => none
    | some c1 => (simplifyPass asg rest).map (c1 :: ·)

/-- First unit clause's literal, scanning in list order (step B). -/
def findUnit : List (List Int) → Option Int
  | [] => none
  | c :: rest => if c.length = 1 then c.head? else findUnit rest

/-- The iterative simplify/unit-propagate loop of
`_dpll_apply_assignment_and_propagate`, with explicit fuel.  Result:
`(active_clauses, final_assignment, has_conflict)`. -/
def propagateF : Nat → Assignment → List (List Int) →
    Option (List (List Int) × Assignment × Bool)
  | 0, _, _ => none
  | fuel + 1, asg, cs =>
    match simplifyPass asg cs with
    | none => some ([], asg, true)
    | some act =>
      if act = [] then some ([], asg, false)
      else
        match findUnit act with
        | none => some (act, asg, false)
        | some l =>
          match lookupA asg (litVar l) with
          | some b =>
            if b = litSign l then propagateF fuel asg act
            else some ([], asg, true)
          | none => propagateF fuel (insertA asg (litVar l) (litSign l)) act

/-- Variables of one clause. -/
def varsC : List Int → Finset Nat
  | [] => ∅
  | l :: ls => insert (litVar l) (varsC ls)

/-- Variables of a clause list (the `all_vars` of `dpll_solver`). -/
def varsF : List (List Int) → Finset Nat
  | [] => ∅
  | c :: cs => varsC c ∪ varsF cs

/-- Variables of the clause list not assigned by `asg`; its cardinality
strictly drops at every unit assignment, so it bounds the loop. -/
def unassignedVars (asg : Assignment) (cs : List (List Int)) : Finset Nat :=
  (varsF cs).filter (fun v => lookupA asg v = none)

/-- `_dpll_apply_assignment_and_propagate`, run with (provably sufficient)
fuel `|unassigned variables| + 1`. -/
def dpll_apply_assignment_and_propagate (asg : Assignment) (cs : List (List Int)) :
    Option (List (List Int) × Assignment × Bool) :=
  propagateF ((unassignedVars asg cs).card + 1) asg cs

/-- First unassigned variable inside one clause. -/
def chooseInClause (asg : Assignment) : List Int → Option Nat
  | [] => none
  | l :: ls =>
    if lookupA asg (litVar l) = none then some (litVar l) else chooseInClause asg ls

/-- `_dpll_choose_unassigned_variable`: first variable found scanning the
active clauses in stored order whose variable is unassigned. -/
def dpll_choose_unassigned_variable (asg : Assignment) : List (List Int) → Option Nat
  | [] => none
  | c :: cs =>
    match chooseInClause asg c with
    | some v => some v
    | none => dpll_choose_unassigned_variable asg cs

/-- `_dpll_recursive` with explicit recursion fuel: propagate, then branch
on the chosen variable, true branch first. -/
def dpll_recursive : Nat → List (List Int) → Assignment → Option (Bool × Assignment)
  | 0, _, _ => none
  | fuel + 1, cs, asg =>
    match dpll_apply_assignment_and_propagate asg cs with
    | none => none
    | some (act, asg2, conf) =>
      if conf then some (false, [])
      else if act = [] then some (true, asg2)
      else
        match dpll_choose_unassigned_variable asg2 act with
        | none => some (true, asg2)
        | some v =>
          match dpll_recursive fuel cs (insertA asg2 v true) with
          | none => none
          | some (true, A) => some (true, A)
          | some (false, _) =>
            match dpll_recursive fuel cs (insertA asg2 v false) with
            | none => none
            | some (true, A) => some (true, A)
            | some (false, _) => some (false, [])

/-- `dpll_solver`: empty input is SAT with the empty assignment; an input
containing an empty clause is UNSAT; otherwise run the recursion (with
provably sufficient fuel `|vars| + 1`; the fallback is never reached). -/
def dpll_solver (F : List (List Int)) : Bool × Assignment :=
  if F = [] then (true, [])
  else if F.any (fun c => c.isEmpty) then (false, [])
  else
    match dpll_recursive ((varsF F).card + 1) F [] with
    | some r => r
    | none => (false, [])

/-- One assignment extends another: every binding of the first is preserved. -/
def Extends (a a2 : Assignment) : Prop :=
  ∀ v b, lookupA a v = some b → lookupA a2 v = some b

/-- A total valuation agrees with every binding of a partial assignment. -/
def AgreesWith (τ : Nat → Bool) (a : Assignment) : Prop :=
  ∀ v b, lookupA a v = some b → τ v = b

/-- Full specification of one successful run of the propagation loop:
the final assignment extends the input one (new bindings only for
variables of the clause set), surviving clauses are nonempty with all
literals unassigned (hence a fixed point of simplification with no unit
left), a conflict means no assignment compatible with the input one
satisfies the clauses, a conflict-free result preserves models in both
directions, and an empty active set means the final assignment already
satisfies every clause. -/
structure PropSpec (asg : Assignment) (cs : List (List Int))
    (r : List (List Int) × Assignment × Bool) : Prop where
  ext : Extends asg r.2.1
  ne_nil : ∀ c ∈ r.1, c ≠ []
  unassigned : ∀ c ∈ r.1, ∀ l ∈ c, lookupA r.2.1 (litVar l) = none
  domain : ∀ v b, lookupA r.2.1 v = some b → lookupA asg v = some b ∨ v ∈ varsF cs
  vars : varsF r.1 ⊆ varsF cs
  conflict_unsat : r.2.2 = true → ∀ τ, AgreesWith τ asg → ¬ formulaSatL τ cs
  forward : r.2.2 = false → ∀ τ, AgreesWith τ asg → formulaSatL τ cs →
      AgreesWith τ r.2.1 ∧ formulaSatL τ r.1
  backward : r.2.2 = false → ∀ τ, AgreesWith τ r.2.1 → formulaSatL τ r.1 → formulaSatL τ cs
  sat_assign : r.2.2 = false → r.1 = [] →
      ∀ c ∈ cs, ∃ l ∈ c, lookupA r.2.1 (litVar l) = some (litSign l)
  fixpoint : r.2.2 = false → simplifyPass r.2.1 r.1 = some r.1 ∧ findUnit r.1 = none

/-! ### Resolution solver (`Resolution_SAT_Implementation.py`) -/

/-- Tautology test of the Python code (`resolve_two_clauses`, and the
Davis-Putnam elimination step): some literal has its negation in the
same clause. -/
def IsTaut (c : Finset Int) : Prop := ∃ l ∈ c, -l ∈ c

instance (c : Finset Int) : Decidable (IsTaut c) :=
  inferInstanceAs (Decidable (∃ l ∈ c, -l ∈ c))

/-- `resolve_two_clauses`: every resolvent `(c1 - {l}) ∪ (c2 - {-l})` on a
complementary literal pair, tautologies excluded. -/
def resolve_two_clauses (c1 c2 : Finset Int) : Finset (Finset Int) :=
  ((c1.filter (fun l => -l ∈ c2)).image (fun l => c1.erase l ∪ c2.erase (-l))).filter
    (fun r => ¬ IsTaut r)

/-- `to_frozenset_clauses`: the clause list as a set of literal sets. -/
def to_frozenset_clauses (F : List (List Int)) : Finset (Finset Int) :=
  (F.map List.toFinset).toFinset

/-- All resolvents from all pairs of distinct clauses of `W`.  The Python
loop scans unordered pairs `i < j` of `list(clauses)`; since
`resolve_two_clauses` is symmetric in its two arguments
(`resolve_two_clauses_comm` below), the union over ordered distinct pairs
is the same set. -/
def allResolvents (W : Finset (Finset Int)) : Finset (Finset Int) :=
  W.biUnion fun c1 => W.biUnion fun c2 =>
    if c1 = c2 then ∅ else resolve_two_clauses c1 c2

/-- The saturation loop of `resolution_solver` with explicit fuel: UNSAT as
soon as an empty clause is derivable, SAT when no resolvent is new,
otherwise add the new resolvents and repeat. -/
def resolutionLoopF : Nat → Finset (Finset Int) → Option Bool
  | 0, _ => none
  | fuel + 1, W =>
    if ∅ ∈ allResolvents W then some false
    else if allResolvents W \ W = ∅ then some true
    else resolutionLoopF fuel (W ∪ (allResolvents W \ W))

/-- Union of all clauses of the working set: the finite literal universe
every derived clause stays inside (used only for the fuel bound). -/
def litUniverse (W : Finset (Finset Int)) : Finset Int := W.sup id

/-- `resolution_solver`: empty input is SAT, an initial empty clause is
UNSAT, otherwise saturate.  The fuel `2 ^ |literal universe| + 1` is proved
sufficient (`resolutionLoopF_total`), so the `getD` default is never used. -/
def resolution_solver (F : List (List Int)) : Bool :=
  if F = [] then true
  else
    if ∅ ∈ to_frozenset_clauses F then false
    else
      (resolutionLoopF (2 ^ (litUniverse (to_frozenset_clauses F)).card + 1)
        (to_frozenset_clauses F)).getD true

/-- All literals of a finset clause are nonzero. -/
def nzC (c : Finset Int) : Prop := ∀ l ∈ c, l ≠ 0

/-- All clauses of a working set have nonzero literals. -/
def nzW (W : Finset (Finset Int)) : Prop := ∀ c ∈ W, nzC c

/-- Variables of a working set. -/
def varsW (W : Finset (Finset Int)) : Finset Nat := W.biUnion fun c => c.image litVar

/-! ### Davis-Putnam solver (`DavisPutnam_SAT_Implementation.py`) -/

/-- `_dp_simplify_clauses`: simplify given that `L` is true — drop clauses
containing `L`, strike `-L` elsewhere.  A clause becoming empty is a
conflict; the Python code then returns `[set()], True`, mirrored here. -/
def dp_simplify_clauses : List (Finset Int) → Int → List (Finset Int) × Bool
  | [], _ => ([], false)
  | c :: rest, L =>
    if L ∈ c then dp_simplify_clauses rest L
    else
      if c.erase (-L) = ∅ then ([∅], true)
      else
        match dp_simplify_clauses rest L with
        | (_, true) => ([∅], true)
        | (cs1, false) => (c.erase (-L) :: cs1, false)

/-- First unit clause of the working list and its literal: Python's
`list(c)[0]` on a singleton set is its unique element; the embedding takes
the head of the sorted listing, which for a singleton is that element. -/
def findUnitDP : List (Finset Int) → Option Int
  | [] => none
  | c :: rest => if c.card = 1 then (c.sort (· ≤ ·)).head? else findUnitDP rest

/-- Variables of the working list (`current_vars_in_formula`). -/
def varsS : List (Finset Int) → Finset Nat
  | [] => ∅
  | c :: rest => c.image litVar ∪ varsS rest

/-- Pure-literal scan over a variable list: a variable occurring with only
one polarity yields the literal of that polarity.  (For the variable 0 both
conditions coincide, so 0 is never returned — matching the Python code,
where `is_pos` and `is_neg` are the same test for variable 0.) -/
def findPureFrom (cs : List (Finset Int)) : List Nat → Option Int
  | [] => none
  | v :: vs =>
    if (∃ c ∈ cs, (v:Int) ∈ c) ∧ ¬ (∃ c ∈ cs, -(v:Int) ∈ c) then some (v:Int)
    else if (∃ c ∈ cs, -(v:Int) ∈ c) ∧ ¬ (∃ c ∈ cs, (v:Int) ∈ c) then some (-(v:Int))
    else findPureFrom cs vs

/-- `pure_literal_val` search: Python iterates the (unordered) variable set;
the embedding scans the variables in ascending order. -/
def findPure (cs : List (Finset Int)) : Option Int :=
  findPureFrom cs ((varsS cs).sort (· ≤ ·))

/-- `any(var_to_eliminate in cl or -var_to_eliminate in cl for cl in clauses)`. -/
def varOccurs (v : Nat) (cs : List (Finset Int)) : Prop :=
  ∃ c ∈ cs, (v:Int) ∈ c ∨ -(v:Int) ∈ c

instance (v : Nat) (cs : List (Finset Int)) : Decidable (varOccurs v cs) :=
  inferInstanceAs (Decidable (∃ c ∈ cs, _ ∨ _))

/-- Outcome of one simplification attempt inside the while loop. -/
inductive DpSimpOut where
  | ret (b : Bool)
  | brk (cs : List (Finset Int))
  | go (cs : List (Finset Int)) (changed : Bool)

/-- Lines 78-88 and 104-113 of the solver: simplify by the chosen literal;
conflict returns UNSAT, an exhausted clause list returns SAT, then the
made-change bookkeeping (the update fires only on a changed list, but an
unchanged update is the identity) and the variable-gone break. -/
def dpSimpStep (v : Nat) (cs : List (Finset Int)) (L : Int) : DpSimpOut :=
  match dp_simplify_clauses cs L with
  | (_, true) => .ret false
  | (cs1, false) =>
    if cs1 = [] then .ret true
    else if ¬ varOccurs v cs1 then .brk cs1
    else .go cs1 (decide (cs1 ≠ cs))

/-- Result of one full iteration of the `while True` loop. -/
inductive DpStep where
  | ret (b : Bool)
  | brk (cs : List (Finset Int))
  | next (cs : List (Finset Int))

/-- One iteration of the while loop (lines 68-116): unit propagation — the
Python guard `if unit_literal:` is falsy both for `None` and for the
literal 0, hence the `getD 0` and the 0 test — then the pure-literal rule,
then the `made_change` exit test. -/
def dpPass (v : Nat) (cs : List (Finset Int)) : DpStep :=
  match (if ((findUnitDP cs).getD 0) = 0 then DpSimpOut.go cs false
         else dpSimpStep v cs ((findUnitDP cs).getD 0)) with
  | .ret b => .ret b
  | .brk cs1 => .brk cs1
  | .go cs1 changed1 =>
    match (match findPure cs1 with
           | none => DpSimpOut.go cs1 false
           | some p => dpSimpStep v cs1 p) with
    | .ret b => .ret b
    | .brk cs2 => .brk cs2
    | .go cs2 changed2 =>
      if changed1 || changed2 then .next cs2 else .brk cs2

/-- The `while True` loop with fuel.  Exhausted fuel acts as a break; the
fuel used by `dpProcessVar` is proved sufficient, so this case is never
reached there. -/
def dpWhileF (v : Nat) : Nat → List (Finset Int) → Bool ⊕ List (Finset Int)
  | 0, cs => .inr cs
  | fuel + 1, cs =>
    match dpPass v cs with
    | .ret b => .inl b
    | .brk cs1 => .inr cs1
    | .next cs1 => dpWhileF v fuel cs1

/-- Total size of the working list; it strictly decreases whenever a
simplification changes the list, which bounds the while loop. -/
def dpMeasure (cs : List (Finset Int)) : Nat := (cs.map (fun c => c.card + 1)).sum

/-- One resolvent `(c1 - {var}) ∪ (c2 - {-var})` of the elimination step. -/
def dpResolvent (v : Nat) (c1 c2 : Finset Int) : Finset Int :=
  c1.erase (v:Int) ∪ c2.erase (-(v:Int))

/-- Non-tautological resolvents of all `pos × neg` pairs in scan order. -/
def dpResolventsRaw (v : Nat) : List (Finset Int) → List (Finset Int) → List (Finset Int)
  | [], _ => []
  | c1 :: rest, neg =>
    (neg.map (fun c2 => dpResolvent v c1 c2)).filter (fun r => decide (¬ IsTaut r))
      ++ dpResolventsRaw v rest neg

/-- The deduplicated non-tautological resolvents (`new_resolvents_for_var`
is a Python set of frozensets; the embedding fixes the scan order and
deduplicates). -/
def dpResolvents (v : Nat) (pos neg : List (Finset Int)) : List (Finset Int) :=
  (dpResolventsRaw v pos neg).dedup

/-- The resolution-elimination step (lines 127-158): partition on the
variable, the pure-polarity safeguard, the empty-resolvent UNSAT check
(the tautology skip never fires on the empty resolvent, so it needs no
tautology side condition), then the new working list with its
empty-clause / exhausted checks. -/
def dp_eliminate (v : Nat) (cs : List (Finset Int)) : Bool ⊕ List (Finset Int) :=
  if (cs.filter fun c => decide ((v:Int) ∈ c)) = [] ∨
      (cs.filter fun c => decide (-(v:Int) ∈ c)) = [] then
    if (cs.filter fun c => decide ((v:Int) ∉ c ∧ -(v:Int) ∉ c)).any fun c => decide (c = ∅)
      then .inl false
    else if (cs.filter fun c => decide ((v:Int) ∉ c ∧ -(v:Int) ∉ c)) = [] then .inl true
    else .inr (cs.filter fun c => decide ((v:Int) ∉ c ∧ -(v:Int) ∉ c))
  else
    if (cs.filter fun c => decide ((v:Int) ∈ c)).any fun c1 =>
        (cs.filter fun c => decide (-(v:Int) ∈ c)).any fun c2 =>
          decide (dpResolvent v c1 c2 = ∅) then
      .inl false
    else
      if ((cs.filter fun c => decide ((v:Int) ∉ c ∧ -(v:Int) ∉ c)) ++
          dpResolvents v (cs.filter fun c => decide ((v:Int) ∈ c))
            (cs.filter fun c => decide (-(v:Int) ∈ c))).any fun c => decide (c = ∅)
        then .inl false
      else if (cs.filter fun c => decide ((v:Int) ∉ c ∧ -(v:Int) ∉ c)) ++
          dpResolvents v (cs.filter fun c => decide ((v:Int) ∈ c))
            (cs.filter fun c => decide (-(v:Int) ∈ c)) = [] then .inl true
      else .inr ((cs.filter fun c => decide ((v:Int) ∉ c ∧ -(v:Int) ∉ c)) ++
          dpResolvents v (cs.filter fun c => decide ((v:Int) ∈ c))
            (cs.filter fun c => decide (-(v:Int) ∈ c)))

/-- Processing of one variable of the elimination loop (lines 66-158): the
while loop (with fuel `dpMeasure cs + 1`, proved sufficient), the
still-present test, then elimination by resolution.  The inner `cs1 = []`
test mirrors line 124 of the source. -/
def dpProcessVar (v : Nat) (cs : List (Finset Int)) : Bool ⊕ List (Finset Int) :=
  match dpWhileF v (dpMeasure cs + 1) cs with
  | .inl b => .inl b
  | .inr cs1 =>
    if ¬ varOccurs v cs1 then
      if cs1 = [] then .inl true else .inr cs1
    else
      if cs1 = [] then .inl true
      else dp_eliminate v cs1

/-- The `for var_to_eliminate in all_vars` loop; after the last variable
the verdict is SAT iff no empty clause is present (lines 160-162). -/
def dpLoop : List Nat → List (Finset Int) → Bool
  | [], cs => if cs.any fun c => decide (c = ∅) then false else true
  | v :: vs, cs =>
    match dpProcessVar v cs with
    | .inl b => b
    | .inr cs1 => dpLoop vs cs1

/-- `dp_original_solver`: empty input is SAT, an initial empty clause is
UNSAT, otherwise eliminate the variables in ascending (sorted) order. -/
def dp_original_solver (F : List (List Int)) : Bool :=
  if F = [] then true
  else
    if (F.map List.toFinset).any fun c => decide (c = ∅) then false
    else dpLoop ((varsS (F.map List.toFinset)).sort (· ≤ ·)) (F.map List.toFinset)

/-- All clauses of a working list have nonzero literals. -/
def nzS (cs : List (Finset Int)) : Prop := ∀ c ∈ cs, nzC c

/-- Some valuation satisfies the whole working list. -/
def SatS (cs : List (Finset Int)) : Prop := ∃ τ, formulaSatS τ cs

/-- A clause avoiding every variable of `pr` (the already-processed ones). -/
def CleanC (pr : Finset Nat) (c : Finset Int) : Prop := ∀ l ∈ c, litVar l ∉ pr

instance (pr : Finset Nat) (c : Finset Int) : Decidable (CleanC pr c) :=
  inferInstanceAs (Decidable (∀ l ∈ c, _ ∉ _))

/-- The clauses of the working list avoiding every processed variable. -/
def cleanPart (pr : Finset Nat) (cs : List (Finset Int)) : List (Finset Int) :=
  cs.filter fun c => decide (CleanC pr c)

/-- The key invariant of the elimination loop: any valuation satisfying the
clean part extends — changing only processed variables — to one satisfying
the whole working list (residual clauses produced by resolving on a
tautological clause can mention processed variables; this invariant is what
makes the final all-variables-processed state satisfiable). -/
def Kinv (pr : Finset Nat) (cs : List (Finset Int)) : Prop :=
  ∀ τ, formulaSatS τ (cleanPart pr cs) →
    ∃ σ, (∀ w, w ∉ pr → σ w = τ w) ∧ formulaSatS σ cs

/-- Relation between consecutive working lists of the elimination loop:
equisatisfiability, nonzero literals, the key invariant (for the processed
set `pr2` that holds after the step), and no new variables. -/
def StepOk (pr2 : Finset Nat) (cs cs1 : List (Finset Int)) : Prop :=
  (SatS cs ↔ SatS cs1) ∧ nzS cs1 ∧ Kinv pr2 cs1 ∧ varsS cs1 ⊆ varsS cs

/-- An early boolean verdict is correct for the working list. -/
def VerdictOk (cs : List (Finset Int)) (b : Bool) : Prop :=
  (b = true → SatS cs) ∧ (b = false → ¬ SatS cs)

/-- Correctness of a simplification-step outcome. -/
def SimpOutOk (pr : Finset Nat) (cs : List (Finset Int)) : DpSimpOut → Prop
  | .ret b => VerdictOk cs b
  | .brk cs1 => StepOk pr cs cs1
  | .go cs1 _ => StepOk pr cs cs1

/-- Correctness of a while-loop-iteration outcome. -/
def PassOutOk (pr : Finset Nat) (cs : List (Finset Int)) : DpStep → Prop
  | .ret b => VerdictOk cs b
  | .brk cs1 => StepOk pr cs cs1
  | .next cs1 => StepOk pr cs cs1

/-- Correctness of a verdict-or-next-list outcome. -/
def SumOutOk (pr2 : Finset Nat) (cs : List (Finset Int)) :
    Bool ⊕ List (Finset Int) → Prop
  | .inl b => VerdictOk cs b
  | .inr cs1 => StepOk pr2 cs cs1

/-! ## MARKER-MORE-DEFS -/

/-! ## Properties and proofs -/


/-! ### Assignment lemmas -/

theorem lookupA_insertA_self (a : Assignment) (v : Nat) (b : Bool) :
    lookupA (insertA a v b) v = some b := by
  simp [insertA, lookupA]

theorem lookupA_insertA_ne (a : Assignment) {v w : Nat} (b : Bool) (h : v ≠ w) :
    lookupA (insertA a v b) w = lookupA a w := by
  simp [insertA, lookupA, h]

theorem extends_refl (a : Assignment) : Extends a a := fun _ _ h => h

theorem extends_trans {a b c : Assignment} (h1 : Extends a b) (h2 : Extends b c) :
    Extends a c := fun v x h => h2 v x (h1 v x h)

theorem extends_insertA {a : Assignment} {v : Nat} (b : Bool)
    (h : lookupA a v = none) : Extends a (insertA a v b) := by
  intro w x hw
  rcases eq_or_ne v w with rfl | hne
  · rw [h] at hw; cases hw
  · rw [lookupA_insertA_ne _ _ hne]; exact hw

theorem agrees_mono {τ : Nat → Bool} {a a2 : Assignment}
    (hext : Extends a a2) (h : AgreesWith τ a2) : AgreesWith τ a :=
  fun v b hv => h v b (hext v b hv)

theorem agrees_insertA {τ : Nat → Bool} {a : Assignment} {v : Nat} {b : Bool}
    (h : AgreesWith τ a) (hv : τ v = b) : AgreesWith τ (insertA a v b) := by
  intro w x hw
  rcases eq_or_ne v w with rfl | hne
  · rw [lookupA_insertA_self] at hw; cases hw; exact hv
  · rw [lookupA_insertA_ne _ _ hne] at hw; exact h w x hw

/-! ### Variable-set lemmas -/

theorem mem_varsC {v : Nat} {c : List Int} :
    v ∈ varsC c ↔ ∃ l ∈ c, litVar l = v := by
  induction c with
  | nil => simp [varsC]
  | cons l ls ih =>
    simp only [varsC, Finset.mem_insert, ih, List.mem_cons]
    constructor
    · rintro (rfl | ⟨x, hx, rfl⟩)
      · exact ⟨l, Or.inl rfl, rfl⟩
      · exact ⟨x, Or.inr hx, rfl⟩
    · rintro ⟨x, (rfl | hx), rfl⟩
      · exact Or.inl rfl
      · exact Or.inr ⟨x, hx, rfl⟩

theorem mem_varsF {v : Nat} {cs : List (List Int)} :
    v ∈ varsF cs ↔ ∃ c ∈ cs, v ∈ varsC c := by
  induction cs with
  | nil => simp [varsF]
  | cons c cs ih => simp [varsF, ih]

theorem litVar_mem_varsF {cs : List (List Int)} {c : List Int} {l : Int}
    (hc : c ∈ cs) (hl : l ∈ c) : litVar l ∈ varsF cs :=
  mem_varsF.2 ⟨c, hc, mem_varsC.2 ⟨l, hl, rfl⟩⟩

/-! ### simplifyClause lemmas -/

theorem sc_none_sat {asg : Assignment} {c : List Int}
    (h : simplifyClause asg c = none) :
    ∃ l ∈ c, lookupA asg (litVar l) = some (litSign l) := by
  induction c with
  | nil => simp [simplifyClause] at h
  | cons l ls ih =>
    rw [simplifyClause] at h
    cases hl : lookupA asg (litVar l) with
    | none => rw [hl] at h; simp at h
              rcases ih h with ⟨l2, h1, h2⟩; exact ⟨l2, List.mem_cons_of_mem _ h1, h2⟩
    | some b =>
      rw [hl] at h
      by_cases hb : b = litSign l
      · exact ⟨l, List.mem_cons_self _ _, by rw [hl, hb]⟩
      · simp [hb] at h
        rcases ih h with ⟨l2, h1, h2⟩; exact ⟨l2, List.mem_cons_of_mem _ h1, h2⟩

theorem sc_some_subset {asg : Assignment} {c c1 : List Int}
    (h : simplifyClause asg c = some c1) : ∀ l ∈ c1, l ∈ c := by
  induction c generalizing c1 with
  | nil => rw [simplifyClause] at h; cases h; simp
  | cons l ls ih =>
    rw [simplifyClause] at h
    cases hl : lookupA asg (litVar l) with
    | none =>
      rw [hl] at h
      cases hr : simplifyClause asg ls with
      | none => rw [hr] at h; cases h
      | some cs1 =>
        rw [hr] at h
        cases h
        intro x hx
        rcases List.mem_cons.1 hx with rfl | hx
        · exact List.mem_cons_self _ _
        · exact List.mem_cons_of_mem _ (ih hr x hx)
    | some b =>
      rw [hl] at h
      by_cases hb : b = litSign l
      · simp [hb] at h
      · simp [hb] at h
        exact fun x hx => List.mem_cons_of_mem _ (ih h x hx)

theorem sc_some_unassigned {asg : Assignment} {c c1 : List Int}
    (h : simplifyClause asg c = some c1) :
    ∀ l ∈ c1, lookupA asg (litVar l) = none := by
  induction c generalizing c1 with
  | nil => rw [simplifyClause] at h; cases h; simp
  | cons l ls ih =>
    rw [simplifyClause] at h
    cases hl : lookupA asg (litVar l) with
    | none =>
      rw [hl] at h
      cases hr : simplifyClause asg ls with
      | none => rw [hr] at h; cases h
      | some cs1 =>
        rw [hr] at h
        cases h
        intro x hx
        rcases List.mem_cons.1 hx with rfl | hx
        · exact hl
        · exact ih hr x hx
    | some b =>
      rw [hl] at h
      by_cases hb : b = litSign l
      · simp [hb] at h
      · simp [hb] at h
        exact ih h

theorem sc_some_iff {asg : Assignment} {c c1 : List Int} {τ : Nat → Bool}
    (h : simplifyClause asg c = some c1) (ha : AgreesWith τ asg) :
    clauseSatL τ c ↔ clauseSatL τ c1 := by
  induction c generalizing c1 with
  | nil => rw [simplifyClause] at h; cases h; rfl
  | cons l ls ih =>
    rw [simplifyClause] at h
    cases hl : lookupA asg (litVar l) with
    | none =>
      rw [hl] at h
      cases hr : simplifyClause asg ls with
      | none => rw [hr] at h; cases h
      | some cs1 =>
        rw [hr] at h
        cases h
        unfold clauseSatL at *
        simp only [List.mem_cons]
        constructor
        · rintro ⟨x, (rfl | hx), hsat⟩
          · exact ⟨x, Or.inl rfl, hsat⟩
          · rcases (ih hr).1 ⟨x, hx, hsat⟩ with ⟨y, hy, hys⟩
            exact ⟨y, Or.inr hy, hys⟩
        · rintro ⟨x, (rfl | hx), hsat⟩
          · exact ⟨x, Or.inl rfl, hsat⟩
          · rcases (ih hr).2 ⟨x, hx, hsat⟩ with ⟨y, hy, hys⟩
            exact ⟨y, Or.inr hy, hys⟩
    | some b =>
      rw [hl] at h
      by_cases hb : b = litSign l
      · simp [hb] at h
      · simp only [hb, if_false] at h
        have hnl : ¬ litHolds τ l := by
          intro hh
          exact hb ((ha _ _ hl).symm.trans hh)
        unfold clauseSatL at *
        simp only [List.mem_cons]
        rw [← ih h]
        constructor
        · rintro ⟨x, (rfl | hx), hsat⟩
          · exact absurd hsat hnl
          · exact ⟨x, hx, hsat⟩
        · rintro ⟨x, hx, hsat⟩
          exact ⟨x, Or.inr hx, hsat⟩

theorem sc_none_clauseSat {asg : Assignment} {c : List Int} {τ : Nat → Bool}
    (h : simplifyClause asg c = none) (ha : AgreesWith τ asg) : clauseSatL τ c := by
  rcases sc_none_sat h with ⟨l, hl, hlk⟩
  exact ⟨l, hl, ha _ _ hlk⟩


/-! ### simplifyPass lemmas -/

theorem sp_conflict {asg : Assignment} {cs : List (List Int)}
    (h : simplifyPass asg cs = none) : ∃ c ∈ cs, simplifyClause asg c = some [] := by
  induction cs with
  | nil => rw [simplifyPass] at h; cases h
  | cons c rest ih =>
    rw [simplifyPass] at h
    cases hc : simplifyClause asg c with
    | none =>
      rw [hc] at h
      rcases ih h with ⟨c2, h1, h2⟩
      exact ⟨c2, List.mem_cons_of_mem _ h1, h2⟩
    | some c1 =>
      rw [hc] at h
      cases c1 with
      | nil => exact ⟨c, List.mem_cons_self _ _, hc⟩
      | cons x xs =>
        cases hr : simplifyPass asg rest with
        | none =>
          rcases ih hr with ⟨c2, h1, h2⟩
          exact ⟨c2, List.mem_cons_of_mem _ h1, h2⟩
        | some cs2 => rw [hr] at h; cases h

theorem sp_mem {asg : Assignment} {cs cs1 : List (List Int)}
    (h : simplifyPass asg cs = some cs1) :
    ∀ c1 ∈ cs1, ∃ c ∈ cs, simplifyClause asg c = some c1 := by
  induction cs generalizing cs1 with
  | nil => rw [simplifyPass] at h; cases h; simp
  | cons c rest ih =>
    rw [simplifyPass] at h
    cases hc : simplifyClause asg c with
    | none =>
      rw [hc] at h
      intro c1 hc1
      rcases ih h c1 hc1 with ⟨c2, h1, h2⟩
      exact ⟨c2, List.mem_cons_of_mem _ h1, h2⟩
    | some c0 =>
      rw [hc] at h
      cases c0 with
      | nil => cases h
      | cons x xs =>
        cases hr : simplifyPass asg rest with
        | none => rw [hr] at h; cases h
        | some cs2 =>
          rw [hr] at h
          cases h
          intro c1 hc1
          rcases List.mem_cons.1 hc1 with rfl | hc1
          · exact ⟨c, List.mem_cons_self _ _, hc⟩
          · rcases ih hr c1 hc1 with ⟨c2, h1, h2⟩
            exact ⟨c2, List.mem_cons_of_mem _ h1, h2⟩

theorem sp_cover {asg : Assignment} {cs cs1 : List (List Int)}
    (h : simplifyPass asg cs = some cs1) :
    ∀ c ∈ cs, simplifyClause asg c = none ∨ ∃ c1 ∈ cs1, simplifyClause asg c = some c1 := by
  induction cs generalizing cs1 with
  | nil => simp
  | cons c rest ih =>
    rw [simplifyPass] at h
    cases hc : simplifyClause asg c with
    | none =>
      rw [hc] at h
      intro c2 hc2
      rcases List.mem_cons.1 hc2 with rfl | hc2
      · exact Or.inl hc
      · exact ih h c2 hc2
    | some c0 =>
      rw [hc] at h
      cases c0 with
      | nil => cases h
      | cons x xs =>
        cases hr : simplifyPass asg rest with
        | none => rw [hr] at h; cases h
        | some cs2 =>
          rw [hr] at h
          cases h
          intro c2 hc2
          rcases List.mem_cons.1 hc2 with rfl | hc2
          · exact Or.inr ⟨x :: xs, List.mem_cons_self _ _, hc⟩
          · rcases ih hr c2 hc2 with h1 | ⟨c1, h1, h2⟩
            · exact Or.inl h1
            · exact Or.inr ⟨c1, List.mem_cons_of_mem _ h1, h2⟩

theorem sp_ne_nil {asg : Assignment} {cs cs1 : List (List Int)}
    (h : simplifyPass asg cs = some cs1) : ∀ c1 ∈ cs1, c1 ≠ [] := by
  induction cs generalizing cs1 with
  | nil => rw [simplifyPass] at h; cases h; simp
  | cons c rest ih =>
    rw [simplifyPass] at h
    cases hc : simplifyClause asg c with
    | none => rw [hc] at h; exact ih h
    | some c0 =>
      rw [hc] at h
      cases c0 with
      | nil => cases h
      | cons x xs =>
        cases hr : simplifyPass asg rest with
        | none => rw [hr] at h; cases h
        | some cs2 =>
          rw [hr] at h
          cases h
          intro c1 hc1
          rcases List.mem_cons.1 hc1 with rfl | hc1
          · simp
          · exact ih hr c1 hc1

theorem sp_iff {asg : Assignment} {cs cs1 : List (List Int)} {τ : Nat → Bool}
    (h : simplifyPass asg cs = some cs1) (ha : AgreesWith τ asg) :
    formulaSatL τ cs ↔ formulaSatL τ cs1 := by
  constructor
  · intro hs c1 hc1
    rcases sp_mem h c1 hc1 with ⟨c, hcm, hcs⟩
    exact (sc_some_iff hcs ha).1 (hs c hcm)
  · intro hs c hcm
    rcases sp_cover h c hcm with h1 | ⟨c1, h1, h2⟩
    · exact sc_none_clauseSat h1 ha
    · exact (sc_some_iff h2 ha).2 (hs c1 h1)

theorem sp_none_unsat {asg : Assignment} {cs : List (List Int)} {τ : Nat → Bool}
    (h : simplifyPass asg cs = none) (ha : AgreesWith τ asg) : ¬ formulaSatL τ cs := by
  intro hs
  rcases sp_conflict h with ⟨c, hcm, hc⟩
  rcases (sc_some_iff hc ha).1 (hs c hcm) with ⟨l, hl, _⟩
  cases hl

theorem sc_id {asg : Assignment} {c : List Int}
    (h : ∀ l ∈ c, lookupA asg (litVar l) = none) : simplifyClause asg c = some c := by
  induction c with
  | nil => rfl
  | cons l ls ih =>
    rw [simplifyClause, h l (List.mem_cons_self _ _),
      ih (fun x hx => h x (List.mem_cons_of_mem _ hx))]
    rfl

theorem sp_fixpoint {asg : Assignment} {cs1 : List (List Int)}
    (hne : ∀ c1 ∈ cs1, c1 ≠ [])
    (hun : ∀ c1 ∈ cs1, ∀ l ∈ c1, lookupA asg (litVar l) = none) :
    simplifyPass asg cs1 = some cs1 := by
  induction cs1 with
  | nil => rfl
  | cons c rest ih =>
    rw [simplifyPass, sc_id (hun c (List.mem_cons_self _ _))]
    cases hc : c with
    | nil => exact absurd hc (hne c (List.mem_cons_self _ _))
    | cons x xs =>
      rw [ih (fun c1 h1 => hne c1 (List.mem_cons_of_mem _ h1))
        (fun c1 h1 => hun c1 (List.mem_cons_of_mem _ h1))]
      rfl

theorem sp_vars {asg : Assignment} {cs cs1 : List (List Int)}
    (h : simplifyPass asg cs = some cs1) : varsF cs1 ⊆ varsF cs := by
  intro v hv
  rcases mem_varsF.1 hv with ⟨c1, hc1, hvc⟩
  rcases mem_varsC.1 hvc with ⟨l, hl, rfl⟩
  rcases sp_mem h c1 hc1 with ⟨c, hcm, hcs⟩
  exact litVar_mem_varsF hcm (sc_some_subset hcs l hl)

/-! ### findUnit lemma -/

theorem fu_mem {cs : List (List Int)} {l : Int} (h : findUnit cs = some l) :
    [l] ∈ cs := by
  induction cs with
  | nil => cases h
  | cons c rest ih =>
    rw [findUnit] at h
    by_cases hc : c.length = 1
    · rw [if_pos hc] at h
      cases c with
      | nil => cases hc
      | cons x xs =>
        cases xs with
        | nil =>
          cases h
          exact List.mem_cons_self _ _
        | cons y ys => simp at hc
    · rw [if_neg hc] at h
      exact List.mem_cons_of_mem _ (ih h)



theorem propSpec_compose {asg asg2 : Assignment} {cs act : List (List Int)}
    {r : List (List Int) × Assignment × Bool}
    (hsp : simplifyPass asg cs = some act)
    (hext : Extends asg asg2)
    (hagree : ∀ τ, AgreesWith τ asg → formulaSatL τ act → AgreesWith τ asg2)
    (hvars2 : ∀ v b, lookupA asg2 v = some b → lookupA asg v = some b ∨ v ∈ varsF act)
    (hs : PropSpec asg2 act r) : PropSpec asg cs r where
  ext := extends_trans hext hs.ext
  ne_nil := hs.ne_nil
  unassigned := hs.unassigned
  domain := by
    intro v b hv
    rcases hs.domain v b hv with hv2 | hv2
    · rcases hvars2 v b hv2 with hv3 | hv3
      · exact Or.inl hv3
      · exact Or.inr (sp_vars hsp hv3)
    · exact Or.inr (sp_vars hsp hv2)
  vars := hs.vars.trans (sp_vars hsp)
  conflict_unsat := by
    intro hc τ ha hsat
    have hact : formulaSatL τ act := (sp_iff hsp ha).1 hsat
    exact hs.conflict_unsat hc τ (hagree τ ha hact) hact
  forward := by
    intro hc τ ha hsat
    have hact : formulaSatL τ act := (sp_iff hsp ha).1 hsat
    exact hs.forward hc τ (hagree τ ha hact) hact
  backward := by
    intro hc τ ha hsat
    have ha0 : AgreesWith τ asg := agrees_mono (extends_trans hext hs.ext) ha
    exact (sp_iff hsp ha0).2 (hs.backward hc τ ha hsat)
  sat_assign := by
    intro hc hnil c hcm
    rcases sp_cover hsp c hcm with h1 | ⟨c1, h1, h2⟩
    · rcases sc_none_sat h1 with ⟨l, hl, hlk⟩
      exact ⟨l, hl, extends_trans hext hs.ext _ _ hlk⟩
    · rcases hs.sat_assign hc hnil c1 h1 with ⟨l, hl, hlk⟩
      exact ⟨l, sc_some_subset h2 l hl, hlk⟩
  fixpoint := hs.fixpoint

theorem propagateF_spec : ∀ (fuel : Nat) (asg : Assignment) (cs : List (List Int))
    (r : List (List Int) × Assignment × Bool),
    propagateF fuel asg cs = some r → PropSpec asg cs r := by
  intro fuel
  induction fuel with
  | zero => intro asg cs r h; cases h
  | succ fuel ih =>
    intro asg cs r h
    rw [propagateF] at h
    cases hsp : simplifyPass asg cs with
    | none =>
      rw [hsp] at h
      dsimp only at h
      cases h
      exact
        { ext := extends_refl _
          ne_nil := by intro c hc; cases hc
          unassigned := by intro c hc; cases hc
          domain := fun v b hv => Or.inl hv
          vars := Finset.empty_subset _
          conflict_unsat := fun _ τ ha => sp_none_unsat hsp ha
          forward := fun hc => Bool.noConfusion hc
          backward := fun hc => Bool.noConfusion hc
          sat_assign := fun hc => Bool.noConfusion hc
          fixpoint := fun hc => Bool.noConfusion hc }
    | some act =>
      rw [hsp] at h
      dsimp only at h
      by_cases hact : act = []
      · subst hact
        rw [if_pos rfl] at h
        cases h
        exact
          { ext := extends_refl _
            ne_nil := by intro c hc; cases hc
            unassigned := by intro c hc; cases hc
            domain := fun v b hv => Or.inl hv
            vars := Finset.empty_subset _
            conflict_unsat := fun hc => Bool.noConfusion hc
            forward := fun _ τ ha _ => ⟨ha, by intro c hc; cases hc⟩
            backward := fun _ τ ha _ => (sp_iff hsp ha).2 (by intro c hc; cases hc)
            sat_assign := by
              intro _ _ c hcm
              rcases sp_cover hsp c hcm with h1 | ⟨c1, h1, _⟩
              · exact sc_none_sat h1
              · cases h1
            fixpoint := fun _ => ⟨rfl, rfl⟩ }
      · rw [if_neg hact] at h
        cases hfu : findUnit act with
        | none =>
          rw [hfu] at h
          cases h
          have hunas : ∀ c ∈ act, ∀ l ∈ c, lookupA asg (litVar l) = none := by
            intro c hc l hl
            rcases sp_mem hsp c hc with ⟨c0, _, hc0⟩
            exact sc_some_unassigned hc0 l hl
          exact
            { ext := extends_refl _
              ne_nil := sp_ne_nil hsp
              unassigned := hunas
              domain := fun v b hv => Or.inl hv
              vars := sp_vars hsp
              conflict_unsat := fun hc => Bool.noConfusion hc
              forward := fun _ τ ha hsat => ⟨ha, (sp_iff hsp ha).1 hsat⟩
              backward := fun _ τ ha hsat => (sp_iff hsp ha).2 hsat
              sat_assign := fun _ hnil => absurd hnil hact
              fixpoint := fun _ => ⟨sp_fixpoint (sp_ne_nil hsp) hunas, hfu⟩ }
        | some l =>
          rw [hfu] at h
          dsimp only at h
          have hlact : [l] ∈ act := fu_mem hfu
          have hlvar : litVar l ∈ varsF act := litVar_mem_varsF hlact (List.mem_cons_self _ _)
          cases hlk : lookupA asg (litVar l) with
          | some b =>
            rw [hlk] at h
            dsimp only at h
            by_cases hb : b = litSign l
            · rw [if_pos hb] at h
              exact propSpec_compose hsp (extends_refl _) (fun τ ha _ => ha)
                (fun v b hv => Or.inl hv) (ih asg act r h)
            · rw [if_neg hb] at h
              cases h
              refine
                { ext := extends_refl _
                  ne_nil := by intro c hc; cases hc
                  unassigned := by intro c hc; cases hc
                  domain := fun v b hv => Or.inl hv
                  vars := Finset.empty_subset _
                  conflict_unsat := ?_
                  forward := fun hc => Bool.noConfusion hc
                  backward := fun hc => Bool.noConfusion hc
                  sat_assign := fun hc => Bool.noConfusion hc
                  fixpoint := fun hc => Bool.noConfusion hc }
              intro _ τ ha hsat
              rcases (sp_iff hsp ha).1 hsat [l] hlact with ⟨x, hx, hxh⟩
              rcases List.mem_singleton.1 hx with rfl
              exact hb ((ha _ _ hlk).symm.trans hxh)
          | none =>
            rw [hlk] at h
            dsimp only at h
            refine propSpec_compose hsp (extends_insertA _ hlk) ?_ ?_ (ih _ act r h)
            · intro τ ha hsat
              rcases hsat [l] hlact with ⟨x, hx, hxh⟩
              rcases List.mem_singleton.1 hx with rfl
              exact agrees_insertA ha hxh
            · intro v b hv
              rcases eq_or_ne (litVar l) v with rfl | hne
              · exact Or.inr hlvar
              · rw [lookupA_insertA_ne _ _ hne] at hv
                exact Or.inl hv

theorem propagateF_total : ∀ (fuel : Nat) (asg : Assignment) (cs : List (List Int)),
    (unassignedVars asg cs).card < fuel → (propagateF fuel asg cs).isSome := by
  intro fuel
  induction fuel with
  | zero => intro asg cs h; cases h
  | succ fuel ih =>
    intro asg cs hcard
    rw [propagateF]
    cases hsp : simplifyPass asg cs with
    | none => rfl
    | some act =>
      dsimp only
      by_cases hact : act = []
      · rw [if_pos hact]; rfl
      · rw [if_neg hact]
        cases hfu : findUnit act with
        | none => rfl
        | some l =>
          have hlact : [l] ∈ act := fu_mem hfu
          have hlun : lookupA asg (litVar l) = none := by
            rcases sp_mem hsp [l] hlact with ⟨c0, _, hc0⟩
            exact sc_some_unassigned hc0 l (List.mem_cons_self _ _)
          dsimp only
          rw [hlun]
          dsimp only
          apply ih
          have hsub : unassignedVars (insertA asg (litVar l) (litSign l)) act ⊆
              (unassignedVars asg cs).erase (litVar l) := by
            intro w hw
            rcases Finset.mem_filter.1 hw with ⟨hw1, hw2⟩
            have hne : w ≠ litVar l := by
              intro hwe
              rw [hwe, lookupA_insertA_self] at hw2
              cases hw2
            rw [lookupA_insertA_ne _ _ (Ne.symm hne)] at hw2
            exact Finset.mem_erase.2 ⟨hne, Finset.mem_filter.2 ⟨sp_vars hsp hw1, hw2⟩⟩
          have hmem : litVar l ∈ unassignedVars asg cs :=
            Finset.mem_filter.2 ⟨sp_vars hsp (litVar_mem_varsF hlact (List.mem_cons_self _ _)), hlun⟩
          calc (unassignedVars (insertA asg (litVar l) (litSign l)) act).card
              ≤ ((unassignedVars asg cs).erase (litVar l)).card := Finset.card_le_card hsub
            _ < (unassignedVars asg cs).card := Finset.card_erase_lt_of_mem hmem
            _ ≤ fuel := Nat.lt_succ_iff.1 hcard

theorem dpll_apply_spec {asg : Assignment} {cs : List (List Int)}
    {r : List (List Int) × Assignment × Bool}
    (h : dpll_apply_assignment_and_propagate asg cs = some r) : PropSpec asg cs r :=
  propagateF_spec _ _ _ _ h

theorem dpll_apply_total (asg : Assignment) (cs : List (List Int)) :
    (dpll_apply_assignment_and_propagate asg cs).isSome :=
  propagateF_total _ _ _ (Nat.lt_succ_self _)


/-! ### Branch-variable choice lemmas -/

theorem cic_some {asg : Assignment} {c : List Int} {v : Nat}
    (h : chooseInClause asg c = some v) :
    lookupA asg v = none ∧ ∃ l ∈ c, litVar l = v := by
  induction c with
  | nil => cases h
  | cons l ls ih =>
    rw [chooseInClause] at h
    by_cases hl : lookupA asg (litVar l) = none
    · rw [if_pos hl] at h
      cases h
      exact ⟨hl, l, List.mem_cons_self _ _, rfl⟩
    · rw [if_neg hl] at h
      rcases ih h with ⟨h1, l2, h2, h3⟩
      exact ⟨h1, l2, List.mem_cons_of_mem _ h2, h3⟩

theorem cic_none {asg : Assignment} {c : List Int}
    (h : chooseInClause asg c = none) : ∀ l ∈ c, lookupA asg (litVar l) ≠ none := by
  induction c with
  | nil => simp
  | cons l ls ih =>
    rw [chooseInClause] at h
    by_cases hl : lookupA asg (litVar l) = none
    · rw [if_pos hl] at h; cases h
    · rw [if_neg hl] at h
      intro x hx
      rcases List.mem_cons.1 hx with rfl | hx
      · exact hl
      · exact ih h x hx

theorem choose_some {asg : Assignment} {cs : List (List Int)} {v : Nat}
    (h : dpll_choose_unassigned_variable asg cs = some v) :
    lookupA asg v = none ∧ v ∈ varsF cs := by
  induction cs with
  | nil => cases h
  | cons c rest ih =>
    rw [dpll_choose_unassigned_variable] at h
    cases hc : chooseInClause asg c with
    | some w =>
      rw [hc] at h
      cases h
      rcases cic_some hc with ⟨h1, l, h2, h3⟩
      exact ⟨h1, by rw [← h3]; exact litVar_mem_varsF (List.mem_cons_self _ _) h2⟩
    | none =>
      rw [hc] at h
      rcases ih h with ⟨h1, h2⟩
      refine ⟨h1, ?_⟩
      rw [varsF]
      exact Finset.mem_union_right _ h2

theorem choose_none {asg : Assignment} {cs : List (List Int)}
    (h : dpll_choose_unassigned_variable asg cs = none) :
    ∀ c ∈ cs, ∀ l ∈ c, lookupA asg (litVar l) ≠ none := by
  induction cs with
  | nil => simp
  | cons c rest ih =>
    rw [dpll_choose_unassigned_variable] at h
    cases hc : chooseInClause asg c with
    | some w => rw [hc] at h; cases h
    | none =>
      rw [hc] at h
      intro c2 hc2
      rcases List.mem_cons.1 hc2 with rfl | hc2
      · exact cic_none hc
      · exact ih h c2 hc2

/-! ### DPLL recursion: soundness, completeness, totality -/

theorem dpll_rec_false : ∀ {fuel : Nat} {cs : List (List Int)} {asg : Assignment}
    {A : Assignment}, dpll_recursive fuel cs asg = some (false, A) → A = [] := by
  intro fuel
  induction fuel with
  | zero => intro cs asg A h; cases h
  | succ fuel ih =>
    intro cs asg A h
    rw [dpll_recursive] at h
    cases hap : dpll_apply_assignment_and_propagate asg cs with
    | none => rw [hap] at h; cases h
    | some r =>
      rw [hap] at h
      rcases r with ⟨act, asg2, conf⟩
      dsimp only at h
      cases conf with
      | true => rw [if_pos rfl] at h; cases h; rfl
      | false =>
        rw [if_neg Bool.false_ne_true] at h
        by_cases hact : act = []
        · rw [if_pos hact] at h; cases h
        · rw [if_neg hact] at h
          cases hch : dpll_choose_unassigned_variable asg2 act with
          | none => rw [hch] at h; cases h
          | some v =>
            rw [hch] at h
            dsimp only at h
            cases h1 : dpll_recursive fuel cs (insertA asg2 v true) with
            | none => rw [h1] at h; cases h
            | some r1 =>
              rw [h1] at h
              rcases r1 with ⟨b1, A1⟩
              cases b1 with
              | true => dsimp only at h; cases h
              | false =>
                dsimp only at h
                cases h2 : dpll_recursive fuel cs (insertA asg2 v false) with
                | none => rw [h2] at h; cases h
                | some r2 =>
                  rw [h2] at h
                  rcases r2 with ⟨b2, A2⟩
                  cases b2 with
                  | true => dsimp only at h; cases h
                  | false => dsimp only at h; cases h; rfl

theorem dpll_rec_sound : ∀ {fuel : Nat} {cs : List (List Int)} {asg A : Assignment},
    dpll_recursive fuel cs asg = some (true, A) →
    Extends asg A ∧ (∀ c ∈ cs, ∃ l ∈ c, lookupA A (litVar l) = some (litSign l)) ∧
      (∀ v b, lookupA A v = some b → lookupA asg v = some b ∨ v ∈ varsF cs) := by
  intro fuel
  induction fuel with
  | zero => intro cs asg A h; cases h
  | succ fuel ih =>
    intro cs asg A h
    rw [dpll_recursive] at h
    cases hap : dpll_apply_assignment_and_propagate asg cs with
    | none => rw [hap] at h; cases h
    | some r =>
      rw [hap] at h
      have hps := dpll_apply_spec hap
      rcases r with ⟨act, asg2, conf⟩
      dsimp only at h
      cases conf with
      | true => rw [if_pos rfl] at h; cases h
      | false =>
        rw [if_neg Bool.false_ne_true] at h
        by_cases hact : act = []
        · rw [if_pos hact] at h
          cases h
          exact ⟨hps.ext, hps.sat_assign rfl hact, hps.domain⟩
        · rw [if_neg hact] at h
          cases hch : dpll_choose_unassigned_variable asg2 act with
          | none =>
            rw [hch] at h
            cases h
            -- defensive branch: propagation left a nonempty clause with an
            -- unassigned literal, contradicting an exhausted choice scan
            exfalso
            cases hacts : act with
            | nil => exact hact hacts
            | cons c act2 =>
              subst hacts
              have hc1 : c ∈ c :: act2 := List.mem_cons_self _ _
              cases hcc : c with
              | nil => exact hps.ne_nil c hc1 hcc
              | cons l ls =>
                subst hcc
                exact choose_none hch _ hc1 l (List.mem_cons_self _ _)
                  (hps.unassigned _ hc1 l (List.mem_cons_self _ _))
          | some v =>
            rw [hch] at h
            dsimp only at h
            rcases choose_some hch with ⟨hvun, hvmem⟩
            have hvcs : v ∈ varsF cs := hps.vars hvmem
            have hextv : ∀ b : Bool, Extends asg (insertA asg2 v b) :=
              fun b => extends_trans hps.ext (extends_insertA b hvun)
            have hdom : ∀ (b : Bool) (w : Nat) (b2 : Bool),
                lookupA (insertA asg2 v b) w = some b2 →
                lookupA asg w = some b2 ∨ w ∈ varsF cs := by
              intro b w b2 hw
              rcases eq_or_ne v w with rfl | hne
              · exact Or.inr hvcs
              · rw [lookupA_insertA_ne _ _ hne] at hw
                exact hps.domain w b2 hw
            cases h1 : dpll_recursive fuel cs (insertA asg2 v true) with
            | none => rw [h1] at h; cases h
            | some r1 =>
              rw [h1] at h
              rcases r1 with ⟨b1, A1⟩
              cases b1 with
              | true =>
                dsimp only at h
                cases h
                rcases ih h1 with ⟨he, hs, hd⟩
                refine ⟨extends_trans (hextv true) he, hs, ?_⟩
                intro w b2 hw
                rcases hd w b2 hw with hw2 | hw2
                · exact hdom true w b2 hw2
                · exact Or.inr hw2
              | false =>
                dsimp only at h
                cases h2 : dpll_recursive fuel cs (insertA asg2 v false) with
                | none => rw [h2] at h; cases h
                | some r2 =>
                  rw [h2] at h
                  rcases r2 with ⟨b2, A2⟩
                  cases b2 with
                  | true =>
                    dsimp only at h
                    cases h
                    rcases ih h2 with ⟨he, hs, hd⟩
                    refine ⟨extends_trans (hextv false) he, hs, ?_⟩
                    intro w b3 hw
                    rcases hd w b3 hw with hw2 | hw2
                    · exact hdom false w b3 hw2
                    · exact Or.inr hw2
                  | false => dsimp only at h; cases h

theorem dpll_rec_complete : ∀ {fuel : Nat} {cs : List (List Int)} {asg A : Assignment},
    dpll_recursive fuel cs asg = some (false, A) →
    ∀ τ, AgreesWith τ asg → ¬ formulaSatL τ cs := by
  intro fuel
  induction fuel with
  | zero => intro cs asg A h; cases h
  | succ fuel ih =>
    intro cs asg A h
    rw [dpll_recursive] at h
    cases hap : dpll_apply_assignment_and_propagate asg cs with
    | none => rw [hap] at h; cases h
    | some r =>
      rw [hap] at h
      have hps := dpll_apply_spec hap
      rcases r with ⟨act, asg2, conf⟩
      dsimp only at h
      cases conf with
      | true =>
        rw [if_pos rfl] at h
        exact fun τ ha => hps.conflict_unsat rfl τ ha
      | false =>
        rw [if_neg Bool.false_ne_true] at h
        by_cases hact : act = []
        · rw [if_pos hact] at h; cases h
        · rw [if_neg hact] at h
          cases hch : dpll_choose_unassigned_variable asg2 act with
          | none => rw [hch] at h; cases h
          | some v =>
            rw [hch] at h
            dsimp only at h
            cases h1 : dpll_recursive fuel cs (insertA asg2 v true) with
            | none => rw [h1] at h; cases h
            | some r1 =>
              rw [h1] at h
              rcases r1 with ⟨b1, A1⟩
              cases b1 with
              | true => dsimp only at h; cases h
              | false =>
                dsimp only at h
                cases h2 : dpll_recursive fuel cs (insertA asg2 v false) with
                | none => rw [h2] at h; cases h
                | some r2 =>
                  rw [h2] at h
                  rcases r2 with ⟨b2, A2⟩
                  cases b2 with
                  | true => dsimp only at h; cases h
                  | false =>
                    intro τ ha hsat
                    have h3 := (hps.forward rfl τ ha hsat).1
                    have h4 : AgreesWith τ (insertA asg2 v (τ v)) :=
                      agrees_insertA h3 rfl
                    cases hv : τ v with
                    | true => exact ih h1 τ (by rw [hv] at h4; exact h4) hsat
                    | false => exact ih h2 τ (by rw [hv] at h4; exact h4) hsat

theorem dpll_rec_total : ∀ (fuel : Nat) (cs : List (List Int)) (asg : Assignment),
    (unassignedVars asg cs).card < fuel → (dpll_recursive fuel cs asg).isSome := by
  intro fuel
  induction fuel with
  | zero => intro cs asg h; cases h
  | succ fuel ih =>
    intro cs asg hcard
    rw [dpll_recursive]
    cases hap : dpll_apply_assignment_and_propagate asg cs with
    | none =>
      exfalso
      have := dpll_apply_total asg cs
      rw [hap] at this
      cases this
    | some r =>
      have hps := dpll_apply_spec hap
      rcases r with ⟨act, asg2, conf⟩
      dsimp only
      cases conf with
      | true => rw [if_pos rfl]; rfl
      | false =>
        rw [if_neg Bool.false_ne_true]
        by_cases hact : act = []
        · rw [if_pos hact]; rfl
        · rw [if_neg hact]
          cases hch : dpll_choose_unassigned_variable asg2 act with
          | none => rfl
          | some v =>
            dsimp only
            rcases choose_some hch with ⟨hvun, hvmem⟩
            have hcard2 : ∀ b : Bool,
                (unassignedVars (insertA asg2 v b) cs).card < fuel := by
              intro b
              have hsub : unassignedVars (insertA asg2 v b) cs ⊆
                  (unassignedVars asg cs).erase v := by
                intro w hw
                rcases Finset.mem_filter.1 hw with ⟨hw1, hw2⟩
                have hne : w ≠ v := by
                  intro hwe
                  rw [hwe, lookupA_insertA_self] at hw2
                  cases hw2
                rw [lookupA_insertA_ne _ _ (Ne.symm hne)] at hw2
                have hw3 : lookupA asg w = none := by
                  cases hw4 : lookupA asg w with
                  | none => rfl
                  | some b2 => rw [hps.ext w b2 hw4] at hw2; cases hw2
                exact Finset.mem_erase.2 ⟨hne, Finset.mem_filter.2 ⟨hw1, hw3⟩⟩
              have hmem : v ∈ unassignedVars asg cs := by
                refine Finset.mem_filter.2 ⟨hps.vars hvmem, ?_⟩
                cases hv4 : lookupA asg v with
                | none => rfl
                | some b2 => rw [hps.ext v b2 hv4] at hvun; cases hvun
              calc (unassignedVars (insertA asg2 v b) cs).card
                  ≤ ((unassignedVars asg cs).erase v).card := Finset.card_le_card hsub
                _ < (unassignedVars asg cs).card := Finset.card_erase_lt_of_mem hmem
                _ ≤ fuel := Nat.lt_succ_iff.1 hcard
            have ht := ih cs (insertA asg2 v true) (hcard2 true)
            cases h1 : dpll_recursive fuel cs (insertA asg2 v true) with
            | none => rw [h1] at ht; cases ht
            | some r1 =>
              rcases r1 with ⟨b1, A1⟩
              cases b1 with
              | true => rfl
              | false =>
                dsimp only
                have hf := ih cs (insertA asg2 v false) (hcard2 false)
                cases h2 : dpll_recursive fuel cs (insertA asg2 v false) with
                | none => rw [h2] at hf; cases hf
                | some r2 =>
                  rcases r2 with ⟨b2, A2⟩
                  cases b2 with
                  | true => rfl
                  | false => rfl


/-! ### Top-level `dpll_solver` facts -/

theorem agrees_nil (τ : Nat → Bool) : AgreesWith τ [] := by
  intro v b h
  cases h

theorem isEmpty_eq {c : List Int} : c.isEmpty = true ↔ c = [] := by
  cases c <;> simp

theorem unassignedVars_nil (cs : List (List Int)) : unassignedVars [] cs = varsF cs := by
  refine Finset.filter_true_of_mem ?_
  intro v _
  rfl

theorem dpll_solver_correct (F : List (List Int)) :
    (dpll_solver F).1 = true ↔ Satisfiable F := by
  rw [dpll_solver]
  by_cases hF : F = []
  · subst hF
    rw [if_pos rfl]
    simp only [true_iff]
    exact ⟨fun _ => true, fun c hc => by cases hc⟩
  · rw [if_neg hF]
    by_cases hem : F.any (fun c => c.isEmpty) = true
    · rw [if_pos hem]
      simp only [Bool.false_eq_true, false_iff]
      rintro ⟨τ, hτ⟩
      rcases List.any_eq_true.1 hem with ⟨c, hc, hce⟩
      rcases hτ c hc with ⟨l, hl, _⟩
      rw [isEmpty_eq.1 hce] at hl
      cases hl
    · rw [if_neg hem]
      have htot := dpll_rec_total ((varsF F).card + 1) F []
        (by rw [unassignedVars_nil]; exact Nat.lt_succ_self _)
      cases hrec : dpll_recursive ((varsF F).card + 1) F [] with
      | none => rw [hrec] at htot; cases htot
      | some r =>
        dsimp only
        rcases r with ⟨b, A⟩
        cases b with
        | true =>
          simp only [true_iff]
          rcases dpll_rec_sound hrec with ⟨_, hs, _⟩
          refine ⟨fun v => (lookupA A v).getD true, ?_⟩
          intro c hc
          rcases hs c hc with ⟨l, hl, hlk⟩
          exact ⟨l, hl, by show (lookupA A (litVar l)).getD true = litSign l; rw [hlk]; rfl⟩
        | false =>
          simp only [Bool.false_eq_true, false_iff]
          rintro ⟨τ, hτ⟩
          exact dpll_rec_complete hrec τ (agrees_nil τ) hτ

theorem dpll_sat_assignment {F : List (List Int)} {A : Assignment}
    (h : dpll_solver F = (true, A)) :
    (∀ c ∈ F, ∃ l ∈ c, lookupA A (litVar l) = some (litSign l)) ∧
      ∀ τ, AgreesWith τ A → formulaSatL τ F := by
  rw [dpll_solver] at h
  by_cases hF : F = []
  · subst hF
    rw [if_pos rfl] at h
    cases h
    exact ⟨(by intro c hc; cases hc), fun τ _ c hc => by cases hc⟩
  · rw [if_neg hF] at h
    by_cases hem : F.any (fun c => c.isEmpty) = true
    · rw [if_pos hem] at h
      cases h
    · rw [if_neg hem] at h
      cases hrec : dpll_recursive ((varsF F).card + 1) F [] with
      | none => rw [hrec] at h; cases h
      | some r =>
        rw [hrec] at h
        rcases r with ⟨b, A2⟩
        cases b with
        | false => cases h
        | true =>
          cases h
          rcases dpll_rec_sound hrec with ⟨_, hs, _⟩
          refine ⟨hs, ?_⟩
          intro τ ha c hc
          rcases hs c hc with ⟨l, hl, hlk⟩
          exact ⟨l, hl, ha _ _ hlk⟩

theorem dpll_assignment_vars {F : List (List Int)} {v : Nat} {b : Bool}
    (h : lookupA (dpll_solver F).2 v = some b) : v ∈ varsF F := by
  rw [dpll_solver] at h
  by_cases hF : F = []
  · rw [if_pos hF] at h
    cases h
  · rw [if_neg hF] at h
    by_cases hem : F.any (fun c => c.isEmpty) = true
    · rw [if_pos hem] at h
      cases h
    · rw [if_neg hem] at h
      cases hrec : dpll_recursive ((varsF F).card + 1) F [] with
      | none => rw [hrec] at h; cases h
      | some r =>
        rw [hrec] at h
        rcases r with ⟨b2, A⟩
        cases b2 with
        | false =>
          rw [dpll_rec_false hrec] at h
          cases h
        | true =>
          rcases dpll_rec_sound hrec with ⟨_, _, hd⟩
          rcases hd v b h with h2 | h2
          · cases h2
          · exact h2

theorem dpll_true_branch_first {fuel : Nat} {cs act : List (List Int)}
    {asg asg2 A : Assignment} {v : Nat}
    (hap : dpll_apply_assignment_and_propagate asg cs = some (act, asg2, false))
    (hact : act ≠ [])
    (hch : dpll_choose_unassigned_variable asg2 act = some v)
    (h1 : dpll_recursive fuel cs (insertA asg2 v true) = some (true, A)) :
    dpll_recursive (fuel + 1) cs asg = some (true, A) := by
  rw [dpll_recursive, hap]
  dsimp only
  rw [if_neg Bool.false_ne_true, if_neg hact, hch]
  dsimp only
  rw [h1]


/-! ### Literal and resolvent lemmas -/

theorem litSign_neg {l : Int} (h : l ≠ 0) : litSign (-l) = !litSign l := by
  unfold litSign
  by_cases hl : 0 < l
  · simp [hl, show ¬ (0:Int) < -l by omega]
  · simp [hl, show (0:Int) < -l by omega]

theorem litHolds_neg {τ : Nat → Bool} {l : Int} (h : l ≠ 0) :
    litHolds τ (-l) ↔ ¬ litHolds τ l := by
  unfold litHolds litVar
  rw [Int.natAbs_neg, litSign_neg h]
  cases litSign l <;> cases τ l.natAbs <;> simp

theorem litVar_cases {l : Int} {v : Nat} (h : litVar l = v) :
    l = (v : Int) ∨ l = -(v : Int) := by
  have h2 : l.natAbs = v := h
  rcases Int.natAbs_eq l with he | he
  · left; rw [he, h2]
  · right; rw [he, h2]

theorem litVar_coe (v : Nat) : litVar (v : Int) = v := Int.natAbs_ofNat v

theorem litVar_neg_coe (v : Nat) : litVar (-(v : Int)) = v := by
  unfold litVar
  rw [Int.natAbs_neg, Int.natAbs_ofNat]

theorem litHolds_coe_true {τ : Nat → Bool} {v : Nat} (hv : v ≠ 0) (h : τ v = true) :
    litHolds τ (v : Int) := by
  unfold litHolds
  rw [litVar_coe, h]
  unfold litSign
  simp [show (0:Int) < (v:Int) by exact_mod_cast Nat.pos_of_ne_zero hv]

theorem litHolds_neg_coe_false {τ : Nat → Bool} {v : Nat} (h : τ v = false) :
    litHolds τ (-(v : Int)) := by
  unfold litHolds
  rw [litVar_neg_coe, h]
  unfold litSign
  simp [show ¬ (0:Int) < -(v:Int) by omega]

theorem nzC_mono {r s : Finset Int} (h : r ⊆ s) (hs : nzC s) : nzC r :=
  fun l hl => hs l (h hl)

theorem nzC_union {a b : Finset Int} (ha : nzC a) (hb : nzC b) : nzC (a ∪ b) := by
  intro l hl
  rcases Finset.mem_union.1 hl with h | h
  · exact ha l h
  · exact hb l h

theorem mem_resolve {c1 c2 r : Finset Int} :
    r ∈ resolve_two_clauses c1 c2 ↔
      ¬ IsTaut r ∧ ∃ l, l ∈ c1 ∧ -l ∈ c2 ∧ r = c1.erase l ∪ c2.erase (-l) := by
  unfold resolve_two_clauses
  rw [Finset.mem_filter, Finset.mem_image]
  constructor
  · rintro ⟨⟨l, hl, rfl⟩, ht⟩
    rcases Finset.mem_filter.1 hl with ⟨h1, h2⟩
    exact ⟨ht, l, h1, h2, rfl⟩
  · rintro ⟨ht, l, h1, h2, rfl⟩
    exact ⟨⟨l, Finset.mem_filter.2 ⟨h1, h2⟩, rfl⟩, ht⟩

theorem resolve_subset {c1 c2 r : Finset Int} (h : r ∈ resolve_two_clauses c1 c2) :
    r ⊆ c1 ∪ c2 := by
  rcases mem_resolve.1 h with ⟨_, l, _, _, rfl⟩
  intro x hx
  rcases Finset.mem_union.1 hx with h2 | h2
  · exact Finset.mem_union_left _ (Finset.mem_of_mem_erase h2)
  · exact Finset.mem_union_right _ (Finset.mem_of_mem_erase h2)

theorem resolve_nz {c1 c2 r : Finset Int} (h : r ∈ resolve_two_clauses c1 c2)
    (h1 : nzC c1) (h2 : nzC c2) : nzC r :=
  nzC_mono (resolve_subset h) (nzC_union h1 h2)

theorem taut_sat {τ : Nat → Bool} {c : Finset Int} (hnz : nzC c) (h : IsTaut c) :
    clauseSatF τ c := by
  rcases h with ⟨l, hl, hnl⟩
  by_cases hh : litHolds τ l
  · exact ⟨l, hl, hh⟩
  · exact ⟨-l, hnl, (litHolds_neg (hnz l hl)).2 hh⟩

theorem resolve_sound {τ : Nat → Bool} {c1 c2 r : Finset Int}
    (h : r ∈ resolve_two_clauses c1 c2) (h1 : nzC c1)
    (hs1 : clauseSatF τ c1) (hs2 : clauseSatF τ c2) : clauseSatF τ r := by
  rcases mem_resolve.1 h with ⟨_, l, hl1, hl2, rfl⟩
  rcases hs1 with ⟨x, hx, hxh⟩
  by_cases hxl : x = l
  · subst hxl
    rcases hs2 with ⟨y, hy, hyh⟩
    by_cases hyl : y = -x
    · subst hyl
      exact absurd hxh ((litHolds_neg (h1 x hx)).1 hyh)
    · exact ⟨y, Finset.mem_union_right _ (Finset.mem_erase.2 ⟨hyl, hy⟩), hyh⟩
  · exact ⟨x, Finset.mem_union_left _ (Finset.mem_erase.2 ⟨hxl, hx⟩), hxh⟩

theorem resolve_two_clauses_comm (c1 c2 : Finset Int) :
    resolve_two_clauses c1 c2 = resolve_two_clauses c2 c1 := by
  ext r
  rw [mem_resolve, mem_resolve]
  constructor
  · rintro ⟨ht, l, h1, h2, rfl⟩
    exact ⟨ht, -l, h2, by rw [neg_neg]; exact h1, by rw [neg_neg, Finset.union_comm]⟩
  · rintro ⟨ht, l, h1, h2, rfl⟩
    exact ⟨ht, -l, h2, by rw [neg_neg]; exact h1, by rw [neg_neg, Finset.union_comm]⟩

theorem mem_allResolvents {W : Finset (Finset Int)} {r : Finset Int} :
    r ∈ allResolvents W ↔
      ∃ c1 ∈ W, ∃ c2 ∈ W, c1 ≠ c2 ∧ r ∈ resolve_two_clauses c1 c2 := by
  unfold allResolvents
  rw [Finset.mem_biUnion]
  constructor
  · rintro ⟨c1, hc1, hr⟩
    rcases Finset.mem_biUnion.1 hr with ⟨c2, hc2, hr2⟩
    by_cases he : c1 = c2
    · rw [if_pos he] at hr2; cases hr2
    · rw [if_neg he] at hr2
      exact ⟨c1, hc1, c2, hc2, he, hr2⟩
  · rintro ⟨c1, hc1, c2, hc2, he, hr⟩
    exact ⟨c1, hc1, Finset.mem_biUnion.2 ⟨c2, hc2, by rw [if_neg he]; exact hr⟩⟩

/-! ### Satisfiability of a saturated, empty-clause-free set -/

theorem saturated_sat : ∀ (n : Nat) (W : Finset (Finset Int)), (varsW W).card = n →
    nzW W → ∅ ∉ W →
    (∀ c1 ∈ W, ∀ c2 ∈ W, c1 ≠ c2 → ∀ r ∈ resolve_two_clauses c1 c2, r ∈ W) →
    ∃ τ, formulaSatW τ W := by
  intro n
  induction n using Nat.strong_induction_on with
  | _ n ih =>
    intro W hcard hnz hne hclosed
    by_cases hv0 : varsW W = ∅
    · refine ⟨fun _ => true, ?_⟩
      intro c hc
      exfalso
      have hsub : c.image litVar ⊆ varsW W := fun x hx => Finset.mem_biUnion.2 ⟨c, hc, hx⟩
      rw [hv0, Finset.subset_empty, Finset.image_eq_empty] at hsub
      subst hsub
      exact hne hc
    · obtain ⟨v, hv⟩ := Finset.nonempty_iff_ne_empty.2 hv0
      have hvW : ∃ c ∈ W, ∃ l ∈ c, litVar l = v := by
        rcases Finset.mem_biUnion.1 hv with ⟨c, hc, hl⟩
        rcases Finset.mem_image.1 hl with ⟨l, hlc, hle⟩
        exact ⟨c, hc, l, hlc, hle⟩
      have hvne : v ≠ 0 := by
        rcases hvW with ⟨c, hc, l, hlc, hle⟩
        intro h0
        exact hnz c hc l hlc (Int.natAbs_eq_zero.1 (by rw [← litVar] at *; rw [hle, h0]))
      have hW'v : ∀ c ∈ W.filter (fun c => (v:Int) ∉ c ∧ -(v:Int) ∉ c),
          ∀ l ∈ c, litVar l ≠ v := by
        intro c hc l hl he
        rcases Finset.mem_filter.1 hc with ⟨_, hcv, hcnv⟩
        rcases litVar_cases he with rfl | rfl
        · exact hcv hl
        · exact hcnv hl
      have hW'sub : W.filter (fun c => (v:Int) ∉ c ∧ -(v:Int) ∉ c) ⊆ W :=
        Finset.filter_subset _ _
      have hcard2 : (varsW (W.filter (fun c => (v:Int) ∉ c ∧ -(v:Int) ∉ c))).card < n := by
      -- variables of the v-free part avoid v, hence fit inside the erase
        have hsub : varsW (W.filter (fun c => (v:Int) ∉ c ∧ -(v:Int) ∉ c)) ⊆
            (varsW W).erase v := by
          intro x hx
          rcases Finset.mem_biUnion.1 hx with ⟨c, hc, hxc⟩
          rcases Finset.mem_image.1 hxc with ⟨l, hlc, hle⟩
          refine Finset.mem_erase.2 ⟨by rw [← hle]; exact hW'v c hc l hlc, ?_⟩
          exact Finset.mem_biUnion.2 ⟨c, hW'sub hc, Finset.mem_image.2 ⟨l, hlc, hle⟩⟩
        calc (varsW (W.filter (fun c => (v:Int) ∉ c ∧ -(v:Int) ∉ c))).card
            ≤ ((varsW W).erase v).card := Finset.card_le_card hsub
          _ < (varsW W).card := Finset.card_erase_lt_of_mem hv
          _ = n := hcard
      have hIH := ih _ hcard2 (W.filter (fun c => (v:Int) ∉ c ∧ -(v:Int) ∉ c)) rfl
        (fun c hc => hnz c (hW'sub hc))
        (fun h => hne (hW'sub h))
        (by
          intro c1 hc1 c2 hc2 hne12 r hr
          rcases Finset.mem_filter.1 hc1 with ⟨hc1W, hc1v, hc1nv⟩
          rcases Finset.mem_filter.1 hc2 with ⟨hc2W, hc2v, hc2nv⟩
          refine Finset.mem_filter.2 ⟨hclosed c1 hc1W c2 hc2W hne12 r hr, ?_, ?_⟩
          · intro hvr
            rcases Finset.mem_union.1 (resolve_subset hr hvr) with h | h
            · exact hc1v h
            · exact hc2v h
          · intro hvr
            rcases Finset.mem_union.1 (resolve_subset hr hvr) with h | h
            · exact hc1nv h
            · exact hc2nv h)
      rcases hIH with ⟨τ, hτ⟩
      by_cases hA : ∃ c1 ∈ W, (v:Int) ∈ c1 ∧ -(v:Int) ∉ c1 ∧
          ¬ clauseSatF τ (c1.erase (v:Int))
      · rcases hA with ⟨c1, hc1W, hc1v, hc1nv, hc1ns⟩
        refine ⟨Function.update τ v true, ?_⟩
        intro c hc
        by_cases hcv : (v:Int) ∈ c
        · exact ⟨(v:Int), hcv, litHolds_coe_true hvne (Function.update_same v true τ)⟩
        · by_cases hcnv : -(v:Int) ∈ c
          · have hne12 : c1 ≠ c := fun he => hcv (he ▸ hc1v)
            have hrsat : clauseSatF τ (c1.erase (v:Int) ∪ c.erase (-(v:Int))) := by
              have hrnz : nzC (c1.erase (v:Int) ∪ c.erase (-(v:Int))) :=
                nzC_union (nzC_mono (Finset.erase_subset _ _) (hnz c1 hc1W))
                  (nzC_mono (Finset.erase_subset _ _) (hnz c hc))
              by_cases hrt : IsTaut (c1.erase (v:Int) ∪ c.erase (-(v:Int)))
              · exact taut_sat hrnz hrt
              · have hrres : (c1.erase (v:Int) ∪ c.erase (-(v:Int))) ∈
                    resolve_two_clauses c1 c := mem_resolve.2 ⟨hrt, (v:Int), hc1v, hcnv, rfl⟩
                refine hτ _ (Finset.mem_filter.2
                  ⟨hclosed c1 hc1W c hc hne12 _ hrres, ?_, ?_⟩)
                · intro hvr
                  rcases Finset.mem_union.1 hvr with h | h
                  · exact (Finset.mem_erase.1 h).1 rfl
                  · exact hcv (Finset.mem_of_mem_erase h)
                · intro hvr
                  rcases Finset.mem_union.1 hvr with h | h
                  · exact hc1nv (Finset.mem_of_mem_erase h)
                  · exact (Finset.mem_erase.1 h).1 rfl
            rcases hrsat with ⟨y, hy, hyh⟩
            have hy2 : y ∈ c.erase (-(v:Int)) := by
              rcases Finset.mem_union.1 hy with h | h
              · exact absurd ⟨y, h, hyh⟩ hc1ns
              · exact h
            have hyc : y ∈ c := Finset.mem_of_mem_erase hy2
            have hyv : litVar y ≠ v := by
              intro he
              rcases litVar_cases he with rfl | rfl
              · exact hcv hyc
              · exact (Finset.mem_erase.1 hy2).1 rfl
            refine ⟨y, hyc, ?_⟩
            unfold litHolds
            rw [Function.update_noteq hyv]
            exact hyh
          · have hcW' : c ∈ W.filter (fun c => (v:Int) ∉ c ∧ -(v:Int) ∉ c) :=
              Finset.mem_filter.2 ⟨hc, hcv, hcnv⟩
            rcases hτ c hcW' with ⟨y, hy, hyh⟩
            refine ⟨y, hy, ?_⟩
            unfold litHolds
            rw [Function.update_noteq (hW'v c hcW' y hy)]
            exact hyh
      · push_neg at hA
        refine ⟨Function.update τ v false, ?_⟩
        intro c hc
        by_cases hcnv : -(v:Int) ∈ c
        · exact ⟨-(v:Int), hcnv, litHolds_neg_coe_false (Function.update_same v false τ)⟩
        · by_cases hcv : (v:Int) ∈ c
          · rcases hA c hc hcv hcnv with ⟨y, hy, hyh⟩
            have hyc : y ∈ c := Finset.mem_of_mem_erase hy
            have hyv : litVar y ≠ v := by
              intro he
              rcases litVar_cases he with rfl | rfl
              · exact (Finset.mem_erase.1 hy).1 rfl
              · exact hcnv hyc
            refine ⟨y, hyc, ?_⟩
            unfold litHolds
            rw [Function.update_noteq hyv]
            exact hyh
          · have hcW' : c ∈ W.filter (fun c => (v:Int) ∉ c ∧ -(v:Int) ∉ c) :=
              Finset.mem_filter.2 ⟨hc, hcv, hcnv⟩
            rcases hτ c hcW' with ⟨y, hy, hyh⟩
            refine ⟨y, hy, ?_⟩
            unfold litHolds
            rw [Function.update_noteq (hW'v c hcW' y hy)]
            exact hyh


/-! ### Resolution loop: partial correctness and totality -/

theorem allResolvents_nz {W : Finset (Finset Int)} (hnz : nzW W) :
    ∀ r ∈ allResolvents W, nzC r := by
  intro r hr
  rcases mem_allResolvents.1 hr with ⟨c1, hc1, c2, hc2, _, hres⟩
  exact resolve_nz hres (hnz c1 hc1) (hnz c2 hc2)

theorem allResolvents_sound {W : Finset (Finset Int)} {τ : Nat → Bool} (hnz : nzW W)
    (hτ : formulaSatW τ W) : ∀ r ∈ allResolvents W, clauseSatF τ r := by
  intro r hr
  rcases mem_allResolvents.1 hr with ⟨c1, hc1, c2, hc2, _, hres⟩
  exact resolve_sound hres (hnz c1 hc1) (hτ c1 hc1) (hτ c2 hc2)

theorem resolutionLoopF_correct : ∀ (fuel : Nat) (W : Finset (Finset Int)) (b : Bool),
    nzW W → ∅ ∉ W → resolutionLoopF fuel W = some b →
    ((b = true → ∃ τ, formulaSatW τ W) ∧ (b = false → ∀ τ, ¬ formulaSatW τ W)) := by
  intro fuel
  induction fuel with
  | zero => intro W b _ _ h; cases h
  | succ fuel ih =>
    intro W b hnz hne h
    rw [resolutionLoopF] at h
    by_cases hemp : ∅ ∈ allResolvents W
    · rw [if_pos hemp] at h
      cases h
      refine ⟨fun hb => Bool.noConfusion hb, fun _ τ hτ => ?_⟩
      rcases allResolvents_sound hnz hτ ∅ hemp with ⟨l, hl, _⟩
      cases hl
    · rw [if_neg hemp] at h
      by_cases hnew : allResolvents W \ W = ∅
      · rw [if_pos hnew] at h
        cases h
        refine ⟨fun _ => ?_, fun hb => Bool.noConfusion hb⟩
        refine saturated_sat (varsW W).card W rfl hnz hne ?_
        intro c1 hc1 c2 hc2 hne12 r hr
        have hrR : r ∈ allResolvents W := mem_allResolvents.2 ⟨c1, hc1, c2, hc2, hne12, hr⟩
        by_contra hrW
        rw [Finset.eq_empty_iff_forall_not_mem] at hnew
        exact hnew r (Finset.mem_sdiff.2 ⟨hrR, hrW⟩)
      · rw [if_neg hnew] at h
        have hnz2 : nzW (W ∪ (allResolvents W \ W)) := by
          intro c hc
          rcases Finset.mem_union.1 hc with hc2 | hc2
          · exact hnz c hc2
          · exact allResolvents_nz hnz c (Finset.mem_sdiff.1 hc2).1
        have hne2 : ∅ ∉ W ∪ (allResolvents W \ W) := by
          intro hmem
          rcases Finset.mem_union.1 hmem with hc2 | hc2
          · exact hne hc2
          · exact hemp (Finset.mem_sdiff.1 hc2).1
        rcases ih _ b hnz2 hne2 h with ⟨h1, h2⟩
        constructor
        · intro hb
          rcases h1 hb with ⟨τ, hτ⟩
          exact ⟨τ, fun c hc => hτ c (Finset.mem_union_left _ hc)⟩
        · intro hb τ hτ
          refine h2 hb τ ?_
          intro c hc
          rcases Finset.mem_union.1 hc with hc2 | hc2
          · exact hτ c hc2
          · exact allResolvents_sound hnz hτ c (Finset.mem_sdiff.1 hc2).1

theorem resolutionLoopF_total : ∀ (fuel : Nat) (W : Finset (Finset Int)) (U : Finset Int),
    (∀ c ∈ W, c ⊆ U) → U.powerset.card < fuel + W.card →
    (resolutionLoopF fuel W).isSome := by
  intro fuel
  induction fuel with
  | zero =>
    intro W U hsub hcard
    exfalso
    have hWsub : W ⊆ U.powerset := fun c hc => Finset.mem_powerset.2 (hsub c hc)
    have := Finset.card_le_card hWsub
    omega
  | succ fuel ih =>
    intro W U hsub hcard
    rw [resolutionLoopF]
    by_cases hemp : ∅ ∈ allResolvents W
    · rw [if_pos hemp]; rfl
    · rw [if_neg hemp]
      by_cases hnew : allResolvents W \ W = ∅
      · rw [if_pos hnew]; rfl
      · rw [if_neg hnew]
        refine ih _ U ?_ ?_
        · intro c hc
          rcases Finset.mem_union.1 hc with hc2 | hc2
          · exact hsub c hc2
          · have hcR := (Finset.mem_sdiff.1 hc2).1
            rcases mem_allResolvents.1 hcR with ⟨c1, hc1, c2, hc2m, _, hres⟩
            intro x hx
            rcases Finset.mem_union.1 ((resolve_subset hres) hx) with hx2 | hx2
            · exact hsub c1 hc1 hx2
            · exact hsub c2 hc2m hx2
        · have hdisj : Disjoint W (allResolvents W \ W) := Finset.disjoint_sdiff
          rw [Finset.card_union_of_disjoint hdisj]
          have hpos : 0 < (allResolvents W \ W).card :=
            Finset.card_pos.2 (Finset.nonempty_iff_ne_empty.2 hnew)
          omega

/-! ### Resolution solver top-level correctness -/

theorem mem_to_frozenset {F : List (List Int)} {X : Finset Int} :
    X ∈ to_frozenset_clauses F ↔ ∃ c ∈ F, c.toFinset = X := by
  unfold to_frozenset_clauses
  rw [List.mem_toFinset, List.mem_map]

theorem clauseSat_toFinset {τ : Nat → Bool} {c : List Int} :
    clauseSatF τ c.toFinset ↔ clauseSatL τ c := by
  unfold clauseSatF clauseSatL
  constructor
  · rintro ⟨l, hl, hh⟩; exact ⟨l, List.mem_toFinset.1 hl, hh⟩
  · rintro ⟨l, hl, hh⟩; exact ⟨l, List.mem_toFinset.2 hl, hh⟩

theorem formulaSat_frozenset {τ : Nat → Bool} {F : List (List Int)} :
    formulaSatW τ (to_frozenset_clauses F) ↔ formulaSatL τ F := by
  constructor
  · intro h c hc
    exact clauseSat_toFinset.1 (h c.toFinset (mem_to_frozenset.2 ⟨c, hc, rfl⟩))
  · intro h X hX
    rcases mem_to_frozenset.1 hX with ⟨c, hc, rfl⟩
    exact clauseSat_toFinset.2 (h c hc)

theorem resolution_solver_correct (F : List (List Int))
    (hnz : ∀ c ∈ F, ∀ l ∈ c, l ≠ 0) :
    (resolution_solver F = true ↔ Satisfiable F) := by
  rw [resolution_solver]
  by_cases hF : F = []
  · subst hF
    rw [if_pos rfl]
    simp only [true_iff]
    exact ⟨fun _ => true, fun c hc => by cases hc⟩
  · rw [if_neg hF]
    by_cases hemp : ∅ ∈ to_frozenset_clauses F
    · rw [if_pos hemp]
      simp only [Bool.false_eq_true, false_iff]
      rintro ⟨τ, hτ⟩
      rcases (formulaSat_frozenset.2 hτ) ∅ hemp with ⟨l, hl, _⟩
      cases hl
    · rw [if_neg hemp]
      have hnzW : nzW (to_frozenset_clauses F) := by
        intro c hc l hl
        rcases mem_to_frozenset.1 hc with ⟨c0, hc0, rfl⟩
        exact hnz c0 hc0 l (List.mem_toFinset.1 hl)
      have htot := resolutionLoopF_total
        (2 ^ (litUniverse (to_frozenset_clauses F)).card + 1)
        (to_frozenset_clauses F) (litUniverse (to_frozenset_clauses F))
        (by
          intro c hc
          unfold litUniverse
          have h2 : id c ≤ (to_frozenset_clauses F).sup id := Finset.le_sup hc
          exact h2)
        (by rw [Finset.card_powerset]; omega)
      cases hloop : resolutionLoopF (2 ^ (litUniverse (to_frozenset_clauses F)).card + 1)
          (to_frozenset_clauses F) with
      | none => rw [hloop] at htot; cases htot
      | some b =>
        rcases resolutionLoopF_correct _ _ b hnzW hemp hloop with ⟨h1, h2⟩
        cases b with
        | true =>
          simp only [Option.getD_some, true_iff]
          rcases h1 rfl with ⟨τ, hτ⟩
          exact ⟨τ, formulaSat_frozenset.1 hτ⟩
        | false =>
          simp only [Option.getD_some, Bool.false_eq_true, false_iff]
          rintro ⟨τ, hτ⟩
          exact h2 rfl τ (formulaSat_frozenset.2 hτ)


/-! ### `dp_simplify_clauses` lemmas -/

theorem dps_cover {cs cs1 : List (Finset Int)} {L : Int}
    (h : dp_simplify_clauses cs L = (cs1, false)) :
    ∀ c ∈ cs, L ∈ c ∨ c.erase (-L) ∈ cs1 := by
  induction cs generalizing cs1 with
  | nil => simp
  | cons c rest ih =>
    rw [dp_simplify_clauses] at h
    by_cases hc : L ∈ c
    · rw [if_pos hc] at h
      intro c2 hc2
      rcases List.mem_cons.1 hc2 with rfl | hc2
      · exact Or.inl hc
      · rcases ih h c2 hc2 with h2 | h2
        · exact Or.inl h2
        · exact Or.inr h2
    · rw [if_neg hc] at h
      by_cases he : c.erase (-L) = ∅
      · rw [if_pos he] at h
        cases h
      · rw [if_neg he] at h
        cases hr : dp_simplify_clauses rest L with
        | mk cs2 conf =>
          rw [hr] at h
          cases conf with
          | true => cases h
          | false =>
            cases h
            intro c2 hc2
            rcases List.mem_cons.1 hc2 with rfl | hc2
            · exact Or.inr (List.mem_cons_self _ _)
            · rcases ih hr c2 hc2 with h2 | h2
              · exact Or.inl h2
              · exact Or.inr (List.mem_cons_of_mem _ h2)

theorem dps_mem {cs cs1 : List (Finset Int)} {L : Int}
    (h : dp_simplify_clauses cs L = (cs1, false)) :
    ∀ c1 ∈ cs1, ∃ c ∈ cs, L ∉ c ∧ c1 = c.erase (-L) ∧ c1 ≠ ∅ := by
  induction cs generalizing cs1 with
  | nil =>
    rw [dp_simplify_clauses] at h
    cases h
    simp
  | cons c rest ih =>
    rw [dp_simplify_clauses] at h
    by_cases hc : L ∈ c
    · rw [if_pos hc] at h
      intro c1 hc1
      rcases ih h c1 hc1 with ⟨c2, h1, h2⟩
      exact ⟨c2, List.mem_cons_of_mem _ h1, h2⟩
    · rw [if_neg hc] at h
      by_cases he : c.erase (-L) = ∅
      · rw [if_pos he] at h
        cases h
      · rw [if_neg he] at h
        cases hr : dp_simplify_clauses rest L with
        | mk cs2 conf =>
          rw [hr] at h
          cases conf with
          | true => cases h
          | false =>
            cases h
            intro c1 hc1
            rcases List.mem_cons.1 hc1 with rfl | hc1
            · exact ⟨c, List.mem_cons_self _ _, hc, rfl, he⟩
            · rcases ih hr c1 hc1 with ⟨c2, h1, h2⟩
              exact ⟨c2, List.mem_cons_of_mem _ h1, h2⟩

theorem dps_conflict {cs : List (Finset Int)} {L : Int} {out : List (Finset Int)}
    (h : dp_simplify_clauses cs L = (out, true)) :
    ∃ c ∈ cs, L ∉ c ∧ c.erase (-L) = ∅ := by
  induction cs generalizing out with
  | nil => rw [dp_simplify_clauses] at h; cases h
  | cons c rest ih =>
    rw [dp_simplify_clauses] at h
    by_cases hc : L ∈ c
    · rw [if_pos hc] at h
      rcases ih h with ⟨c2, h1, h2⟩
      exact ⟨c2, List.mem_cons_of_mem _ h1, h2⟩
    · rw [if_neg hc] at h
      by_cases he : c.erase (-L) = ∅
      · exact ⟨c, List.mem_cons_self _ _, hc, he⟩
      · rw [if_neg he] at h
        cases hr : dp_simplify_clauses rest L with
        | mk cs2 conf =>
          rw [hr] at h
          cases conf with
          | true =>
            rcases ih hr with ⟨c2, h1, h2⟩
            exact ⟨c2, List.mem_cons_of_mem _ h1, h2⟩
          | false => cases h

theorem dps_nz {cs cs1 : List (Finset Int)} {L : Int}
    (h : dp_simplify_clauses cs L = (cs1, false)) (hnz : nzS cs) : nzS cs1 := by
  intro c1 hc1
  rcases dps_mem h c1 hc1 with ⟨c, hcm, _, rfl, _⟩
  exact nzC_mono (Finset.erase_subset _ _) (hnz c hcm)

theorem mem_varsS {w : Nat} {cs : List (Finset Int)} :
    w ∈ varsS cs ↔ ∃ c ∈ cs, ∃ l ∈ c, litVar l = w := by
  induction cs with
  | nil => simp [varsS]
  | cons c rest ih =>
    rw [varsS]
    simp only [Finset.mem_union, Finset.mem_image, ih, List.mem_cons]
    constructor
    · rintro (⟨l, hl, rfl⟩ | ⟨c2, hc2, l, hl, rfl⟩)
      · exact ⟨c, Or.inl rfl, l, hl, rfl⟩
      · exact ⟨c2, Or.inr hc2, l, hl, rfl⟩
    · rintro ⟨c2, (rfl | hc2), l, hl, rfl⟩
      · exact Or.inl ⟨l, hl, rfl⟩
      · exact Or.inr ⟨c2, hc2, l, hl, rfl⟩

theorem dps_vars {cs cs1 : List (Finset Int)} {L : Int}
    (h : dp_simplify_clauses cs L = (cs1, false)) : varsS cs1 ⊆ varsS cs := by
  intro w hw
  rcases mem_varsS.1 hw with ⟨c1, hc1, l, hl, rfl⟩
  rcases dps_mem h c1 hc1 with ⟨c, hcm, _, rfl, _⟩
  exact mem_varsS.2 ⟨c, hcm, l, Finset.mem_of_mem_erase hl, rfl⟩


/-! ### Semantic core lemmas for `dp_simplify_clauses` -/

theorem dps_varfree {cs cs1 : List (Finset Int)} {L : Int}
    (h : dp_simplify_clauses cs L = (cs1, false)) :
    ∀ c1 ∈ cs1, ∀ l ∈ c1, litVar l ≠ litVar L := by
  intro c1 hc1 l hl he
  rcases dps_mem h c1 hc1 with ⟨c, hcm, hLc, rfl, _⟩
  have hlc : l ∈ c := Finset.mem_of_mem_erase hl
  have hlne : l ≠ -L := (Finset.mem_erase.1 hl).1
  have he2 : l.natAbs = L.natAbs := he
  rcases Int.natAbs_eq_natAbs_iff.1 he2 with rfl | h2
  · exact hLc hlc
  · exact hlne h2

theorem dps_sound {cs cs1 : List (Finset Int)} {L : Int} {τ : Nat → Bool}
    (h : dp_simplify_clauses cs L = (cs1, false)) (hL : L ≠ 0)
    (hτ : formulaSatS τ cs) (hLh : litHolds τ L) : formulaSatS τ cs1 := by
  intro c1 hc1
  rcases dps_mem h c1 hc1 with ⟨c, hcm, _, rfl, _⟩
  rcases hτ c hcm with ⟨y, hy, hyh⟩
  refine ⟨y, Finset.mem_erase.2 ⟨?_, hy⟩, hyh⟩
  rintro rfl
  exact (litHolds_neg hL).1 hyh hLh

theorem dps_lift {cs cs1 : List (Finset Int)} {L : Int} {τ : Nat → Bool}
    (h : dp_simplify_clauses cs L = (cs1, false))
    (hτ : formulaSatS τ cs1) :
    formulaSatS (Function.update τ (litVar L) (litSign L)) cs := by
  intro c hcm
  rcases dps_cover h c hcm with hLc | hc1
  · refine ⟨L, hLc, ?_⟩
    show Function.update τ (litVar L) (litSign L) (litVar L) = litSign L
    exact Function.update_same _ _ _
  · rcases hτ _ hc1 with ⟨y, hy, hyh⟩
    have hyvar : litVar y ≠ litVar L := dps_varfree h _ hc1 y hy
    refine ⟨y, Finset.mem_of_mem_erase hy, ?_⟩
    show Function.update τ (litVar L) (litSign L) (litVar y) = litSign y
    rw [Function.update_noteq hyvar]
    exact hyh

theorem dps_ret_true_sat {cs : List (Finset Int)} {L : Int}
    (h : dp_simplify_clauses cs L = ([], false)) : SatS cs :=
  ⟨Function.update (fun _ => true) (litVar L) (litSign L),
    dps_lift h (fun c hc => by cases hc)⟩

theorem dps_conflict_cases {cs out : List (Finset Int)} {L : Int}
    (h : dp_simplify_clauses cs L = (out, true)) :
    ∃ c ∈ cs, c = ∅ ∨ c = {-L} := by
  rcases dps_conflict h with ⟨c, hcm, _, he⟩
  refine ⟨c, hcm, Finset.subset_singleton_iff.1 ?_⟩
  intro x hx
  by_contra hne
  rw [Finset.mem_singleton] at hne
  exact Finset.not_mem_empty x (he ▸ Finset.mem_erase.2 ⟨hne, hx⟩)

theorem dps_unit_conflict_unsat {cs out : List (Finset Int)} {L : Int}
    (h : dp_simplify_clauses cs L = (out, true)) (hL : L ≠ 0)
    (hunit : {L} ∈ cs) : ¬ SatS cs := by
  rintro ⟨τ, hτ⟩
  rcases dps_conflict_cases h with ⟨c, hcm, rfl | rfl⟩
  · rcases hτ _ hcm with ⟨y, hy, _⟩
    exact absurd hy (Finset.not_mem_empty _)
  · rcases hτ _ hcm with ⟨y, hy, hyh⟩
    rcases hτ _ hunit with ⟨x, hx, hxh⟩
    rw [Finset.mem_singleton] at hy hx
    subst hy; subst hx
    exact (litHolds_neg hL).1 hyh hxh

theorem dps_pure_conflict_unsat {cs out : List (Finset Int)} {L : Int}
    (h : dp_simplify_clauses cs L = (out, true))
    (hpure : ∀ c ∈ cs, -L ∉ c) : ¬ SatS cs := by
  rintro ⟨τ, hτ⟩
  rcases dps_conflict_cases h with ⟨c, hcm, rfl | rfl⟩
  · rcases hτ _ hcm with ⟨y, hy, _⟩
    exact absurd hy (Finset.not_mem_empty _)
  · exact hpure _ hcm (Finset.mem_singleton_self _)

theorem dps_pure_subset {cs cs1 : List (Finset Int)} {L : Int}
    (h : dp_simplify_clauses cs L = (cs1, false))
    (hpure : ∀ c ∈ cs, -L ∉ c) : ∀ c1 ∈ cs1, c1 ∈ cs := by
  intro c1 hc1
  rcases dps_mem h c1 hc1 with ⟨c, hcm, _, rfl, _⟩
  rw [Finset.erase_eq_of_not_mem (hpure c hcm)]
  exact hcm

/-! ### Clean-part lemmas -/

theorem cleanPart_cons {pr : Finset Nat} {c : Finset Int} {cs : List (Finset Int)} :
    cleanPart pr (c :: cs) =
      if CleanC pr c then c :: cleanPart pr cs else cleanPart pr cs := by
  by_cases h : CleanC pr c
  · simp [cleanPart, List.filter_cons, h]
  · simp [cleanPart, List.filter_cons, h]

theorem mem_cleanPart {pr : Finset Nat} {c : Finset Int} {cs : List (Finset Int)} :
    c ∈ cleanPart pr cs ↔ c ∈ cs ∧ CleanC pr c := by
  unfold cleanPart
  rw [List.mem_filter]
  simp

theorem cleanC_erase_iff {pr : Finset Nat} {c : Finset Int} {L : Int}
    (hLpr : litVar L ∉ pr) : CleanC pr (c.erase (-L)) ↔ CleanC pr c := by
  constructor
  · intro h l hl
    by_cases hle : l = -L
    · subst hle
      rw [show litVar (-L) = litVar L from by unfold litVar; rw [Int.natAbs_neg]]
      exact hLpr
    · exact h l (Finset.mem_erase.2 ⟨hle, hl⟩)
  · intro h l hl
    exact h l (Finset.mem_of_mem_erase hl)

theorem dps_clean_commute {pr : Finset Nat} {cs cs1 : List (Finset Int)} {L : Int}
    (h : dp_simplify_clauses cs L = (cs1, false)) (hLpr : litVar L ∉ pr) :
    dp_simplify_clauses (cleanPart pr cs) L = (cleanPart pr cs1, false) := by
  induction cs generalizing cs1 with
  | nil =>
    rw [dp_simplify_clauses] at h
    cases h
    rfl
  | cons c rest ih =>
    rw [dp_simplify_clauses] at h
    by_cases hc : L ∈ c
    · rw [if_pos hc] at h
      rw [cleanPart_cons]
      by_cases hcl : CleanC pr c
      · rw [if_pos hcl, dp_simplify_clauses, if_pos hc]
        exact ih h
      · rw [if_neg hcl]
        exact ih h
    · rw [if_neg hc] at h
      by_cases he : c.erase (-L) = ∅
      · rw [if_pos he] at h
        cases h
      · rw [if_neg he] at h
        cases hr : dp_simplify_clauses rest L with
        | mk cs2 conf =>
          rw [hr] at h
          cases conf with
          | true => cases h
          | false =>
            cases h
            rw [cleanPart_cons]
            by_cases hcl : CleanC pr c
            · rw [if_pos hcl, dp_simplify_clauses, if_neg hc, if_neg he, ih hr]
              rw [cleanPart_cons, if_pos ((cleanC_erase_iff hLpr).2 hcl)]
            · rw [if_neg hcl, ih hr]
              rw [cleanPart_cons, if_neg (fun hx => hcl ((cleanC_erase_iff hLpr).1 hx))]


/-! ### Unit and pure-literal search -/

theorem litVar_neg (L : Int) : litVar (-L) = litVar L := by
  unfold litVar
  rw [Int.natAbs_neg]

theorem findUnitDP_mem {cs : List (Finset Int)} {L : Int} (h : findUnitDP cs = some L) :
    {L} ∈ cs := by
  induction cs with
  | nil => cases h
  | cons c rest ih =>
    rw [findUnitDP] at h
    by_cases hc : c.card = 1
    · rw [if_pos hc] at h
      rcases Finset.card_eq_one.1 hc with ⟨a, rfl⟩
      rw [Finset.sort_singleton] at h
      cases h
      exact List.mem_cons_self _ _
    · rw [if_neg hc] at h
      exact List.mem_cons_of_mem _ (ih h)

theorem findPureFrom_spec {cs : List (Finset Int)} {vs : List Nat} {p : Int}
    (h : findPureFrom cs vs = some p) :
    p ≠ 0 ∧ (∃ c ∈ cs, p ∈ c) ∧ ∀ c ∈ cs, -p ∉ c := by
  induction vs with
  | nil => cases h
  | cons v vs ih =>
    rw [findPureFrom] at h
    by_cases h1 : (∃ c ∈ cs, (v:Int) ∈ c) ∧ ¬ (∃ c ∈ cs, -(v:Int) ∈ c)
    · rw [if_pos h1] at h
      cases h
      refine ⟨?_, h1.1, fun c hc hm => h1.2 ⟨c, hc, hm⟩⟩
      intro h0
      rcases h1.1 with ⟨c, hc, hm⟩
      refine h1.2 ⟨c, hc, ?_⟩
      rw [h0] at hm ⊢
      simpa using hm
    · rw [if_neg h1] at h
      by_cases h2 : (∃ c ∈ cs, -(v:Int) ∈ c) ∧ ¬ (∃ c ∈ cs, (v:Int) ∈ c)
      · rw [if_pos h2] at h
        cases h
        refine ⟨?_, h2.1, fun c hc hm => h2.2 ⟨c, hc, by simpa using hm⟩⟩
        intro h0
        have hv0 : (v:Int) = 0 := by omega
        rcases h2.1 with ⟨c, hc, hm⟩
        refine h2.2 ⟨c, hc, ?_⟩
        rw [hv0] at hm ⊢
        simpa using hm
      · rw [if_neg h2] at h
        exact ih h

theorem findPure_spec {cs : List (Finset Int)} {p : Int} (h : findPure cs = some p) :
    p ≠ 0 ∧ (∃ c ∈ cs, p ∈ c) ∧ ∀ c ∈ cs, -p ∉ c :=
  findPureFrom_spec h

/-! ### Key-invariant preservation through one simplification -/

theorem kinv_unit_step {pr : Finset Nat} {cs cs1 : List (Finset Int)} {L : Int}
    (h : dp_simplify_clauses cs L = (cs1, false)) (hL : L ≠ 0)
    (hunit : {L} ∈ cs) (hk : Kinv pr cs) : Kinv pr cs1 := by
  by_cases hLpr : litVar L ∈ pr
  · -- processed variable: the clean part of the list is untouched
    intro τ hτ
    have hτcs : formulaSatS τ (cleanPart pr cs) := by
      intro c hc
      rcases mem_cleanPart.1 hc with ⟨hcm, hcl⟩
      have hLc : L ∉ c := fun hLc => hcl L hLc hLpr
      have hnLc : -L ∉ c := fun hnc => hcl (-L) hnc (by rw [litVar_neg]; exact hLpr)
      rcases dps_cover h c hcm with h2 | h2
      · exact absurd h2 hLc
      · rw [Finset.erase_eq_of_not_mem hnLc] at h2
        exact hτ c (mem_cleanPart.2 ⟨h2, hcl⟩)
    rcases hk τ hτcs with ⟨σ, hσpr, hσ⟩
    refine ⟨σ, hσpr, ?_⟩
    have hσL : litHolds σ L := by
      rcases hσ _ hunit with ⟨x, hx, hxh⟩
      rw [Finset.mem_singleton] at hx
      subst hx
      exact hxh
    exact dps_sound h hL hσ hσL
  · -- unprocessed variable: commute with the clean part, lift, then reset
    intro τ hτ
    have hcomm := dps_clean_commute h hLpr
    have hlift := dps_lift hcomm hτ
    rcases hk _ hlift with ⟨σ, hσpr, hσ⟩
    have hσL : litHolds σ L := by
      rcases hσ _ hunit with ⟨x, hx, hxh⟩
      rw [Finset.mem_singleton] at hx
      subst hx
      exact hxh
    have hσ1 : formulaSatS σ cs1 := dps_sound h hL hσ hσL
    refine ⟨Function.update σ (litVar L) (τ (litVar L)), ?_, ?_⟩
    · intro w hw
      by_cases hwL : w = litVar L
      · subst hwL
        rw [Function.update_same]
      · rw [Function.update_noteq hwL, hσpr w hw, Function.update_noteq hwL]
    · intro c hc
      rcases hσ1 c hc with ⟨y, hy, hyh⟩
      refine ⟨y, hy, ?_⟩
      show Function.update σ (litVar L) (τ (litVar L)) (litVar y) = litSign y
      rw [Function.update_noteq (dps_varfree h c hc y hy)]
      exact hyh

theorem kinv_pure_step {pr : Finset Nat} {cs cs1 : List (Finset Int)} {L : Int}
    (h : dp_simplify_clauses cs L = (cs1, false))
    (hpure : ∀ c ∈ cs, -L ∉ c) (hk : Kinv pr cs) : Kinv pr cs1 := by
  by_cases hLpr : litVar L ∈ pr
  · intro τ hτ
    have hτcs : formulaSatS τ (cleanPart pr cs) := by
      intro c hc
      rcases mem_cleanPart.1 hc with ⟨hcm, hcl⟩
      have hLc : L ∉ c := fun hLc => hcl L hLc hLpr
      rcases dps_cover h c hcm with h2 | h2
      · exact absurd h2 hLc
      · rw [Finset.erase_eq_of_not_mem (hpure c hcm)] at h2
        exact hτ c (mem_cleanPart.2 ⟨h2, hcl⟩)
    rcases hk τ hτcs with ⟨σ, hσpr, hσ⟩
    exact ⟨σ, hσpr, fun c1 hc1 => hσ c1 (dps_pure_subset h hpure c1 hc1)⟩
  · intro τ hτ
    have hcomm := dps_clean_commute h hLpr
    have hlift := dps_lift hcomm hτ
    rcases hk _ hlift with ⟨σ, hσpr, hσ⟩
    have hσ1 : formulaSatS σ cs1 := fun c1 hc1 => hσ c1 (dps_pure_subset h hpure c1 hc1)
    refine ⟨Function.update σ (litVar L) (τ (litVar L)), ?_, ?_⟩
    · intro w hw
      by_cases hwL : w = litVar L
      · subst hwL
        rw [Function.update_same]
      · rw [Function.update_noteq hwL, hσpr w hw, Function.update_noteq hwL]
    · intro c hc
      rcases hσ1 c hc with ⟨y, hy, hyh⟩
      refine ⟨y, hy, ?_⟩
      show Function.update σ (litVar L) (τ (litVar L)) (litVar y) = litSign y
      rw [Function.update_noteq (dps_varfree h c hc y hy)]
      exact hyh


/-! ### Step composition -/

theorem stepOk_refl {pr : Finset Nat} {cs : List (Finset Int)}
    (hnz : nzS cs) (hk : Kinv pr cs) : StepOk pr cs cs :=
  ⟨Iff.rfl, hnz, hk, fun _ h => h⟩

theorem stepOk_trans {prA prB : Finset Nat} {cs cs1 cs2 : List (Finset Int)}
    (h1 : StepOk prA cs cs1) (h2 : StepOk prB cs1 cs2) : StepOk prB cs cs2 :=
  ⟨h1.1.trans h2.1, h2.2.1, h2.2.2.1, h2.2.2.2.trans h1.2.2.2⟩

theorem verdictOk_transfer {cs cs1 : List (Finset Int)} {b : Bool}
    (hiff : SatS cs ↔ SatS cs1) (h : VerdictOk cs1 b) : VerdictOk cs b :=
  ⟨fun hb => hiff.2 (h.1 hb), fun hb hs => h.2 hb (hiff.1 hs)⟩

/-! ### `dpSimpStep` specification -/

theorem dpSimpStep_spec_unit (pr : Finset Nat) (v : Nat)
    {cs : List (Finset Int)} {L : Int} (hnz : nzS cs) (hk : Kinv pr cs)
    (hL : L ≠ 0) (hunit : {L} ∈ cs) :
    SimpOutOk pr cs (dpSimpStep v cs L) := by
  rw [dpSimpStep]
  cases hsim : dp_simplify_clauses cs L with
  | mk cs2 conf =>
    cases conf with
    | true =>
      exact ⟨fun hb => Bool.noConfusion hb, fun _ => dps_unit_conflict_unsat hsim hL hunit⟩
    | false =>
      dsimp only
      by_cases hnil : cs2 = []
      · rw [if_pos hnil]
        subst hnil
        exact ⟨fun _ => dps_ret_true_sat hsim, fun hb => Bool.noConfusion hb⟩
      · rw [if_neg hnil]
        have hok : StepOk pr cs cs2 := by
          refine ⟨⟨?_, ?_⟩, dps_nz hsim hnz, kinv_unit_step hsim hL hunit hk,
            dps_vars hsim⟩
          · rintro ⟨τ, hτ⟩
            have hLh : litHolds τ L := by
              rcases hτ _ hunit with ⟨x, hx, hxh⟩
              rw [Finset.mem_singleton] at hx
              subst hx
              exact hxh
            exact ⟨τ, dps_sound hsim hL hτ hLh⟩
          · rintro ⟨τ, hτ⟩
            exact ⟨_, dps_lift hsim hτ⟩
        by_cases hocc : ¬ varOccurs v cs2
        · rw [if_pos hocc]
          exact hok
        · rw [if_neg hocc]
          exact hok

theorem dpSimpStep_spec_pure (pr : Finset Nat) (v : Nat)
    {cs : List (Finset Int)} {L : Int} (hnz : nzS cs) (hk : Kinv pr cs)
    (hpure : ∀ c ∈ cs, -L ∉ c) :
    SimpOutOk pr cs (dpSimpStep v cs L) := by
  rw [dpSimpStep]
  cases hsim : dp_simplify_clauses cs L with
  | mk cs2 conf =>
    cases conf with
    | true =>
      exact ⟨fun hb => Bool.noConfusion hb, fun _ => dps_pure_conflict_unsat hsim hpure⟩
    | false =>
      dsimp only
      by_cases hnil : cs2 = []
      · rw [if_pos hnil]
        subst hnil
        exact ⟨fun _ => dps_ret_true_sat hsim, fun hb => Bool.noConfusion hb⟩
      · rw [if_neg hnil]
        have hok : StepOk pr cs cs2 := by
          refine ⟨⟨?_, ?_⟩, dps_nz hsim hnz, kinv_pure_step hsim hpure hk,
            dps_vars hsim⟩
          · rintro ⟨τ, hτ⟩
            exact ⟨τ, fun c1 hc1 => hτ c1 (dps_pure_subset hsim hpure c1 hc1)⟩
          · rintro ⟨τ, hτ⟩
            exact ⟨_, dps_lift hsim hτ⟩
        by_cases hocc : ¬ varOccurs v cs2
        · rw [if_pos hocc]
          exact hok
        · rw [if_neg hocc]
          exact hok

/-! ### `dpPass` and `dpWhileF` specifications -/

theorem dpPass_spec (pr : Finset Nat) (v : Nat) {cs : List (Finset Int)}
    (hnz : nzS cs) (hk : Kinv pr cs) : PassOutOk pr cs (dpPass v cs) := by
  have hok1 : SimpOutOk pr cs (if (findUnitDP cs).getD 0 = 0 then DpSimpOut.go cs false
      else dpSimpStep v cs ((findUnitDP cs).getD 0)) := by
    by_cases hu : (findUnitDP cs).getD 0 = 0
    · rw [if_pos hu]
      exact stepOk_refl hnz hk
    · rw [if_neg hu]
      cases hfu : findUnitDP cs with
      | none => rw [hfu] at hu; simp at hu
      | some L =>
        rw [hfu] at hu
        simp only [Option.getD_some] at hu ⊢
        exact dpSimpStep_spec_unit pr v hnz hk hu (findUnitDP_mem hfu)
  rw [dpPass]
  cases hr1 : (if (findUnitDP cs).getD 0 = 0 then DpSimpOut.go cs false
      else dpSimpStep v cs ((findUnitDP cs).getD 0)) with
  | ret b => rw [hr1] at hok1; exact hok1
  | brk cs1 => rw [hr1] at hok1; exact hok1
  | go cs1 ch1 =>
    rw [hr1] at hok1
    dsimp only
    have hnz1 : nzS cs1 := hok1.2.1
    have hk1 : Kinv pr cs1 := hok1.2.2.1
    have hok2 : SimpOutOk pr cs1 (match findPure cs1 with
        | none => DpSimpOut.go cs1 false
        | some p => dpSimpStep v cs1 p) := by
      cases hfp : findPure cs1 with
      | none => exact stepOk_refl hnz1 hk1
      | some p =>
        rcases findPure_spec hfp with ⟨_, _, hpure⟩
        exact dpSimpStep_spec_pure pr v hnz1 hk1 hpure
    cases hr2 : (match findPure cs1 with
        | none => DpSimpOut.go cs1 false
        | some p => dpSimpStep v cs1 p) with
    | ret b =>
      rw [hr2] at hok2
      dsimp only
      exact verdictOk_transfer hok1.1 hok2
    | brk cs2 =>
      rw [hr2] at hok2
      dsimp only
      exact stepOk_trans hok1 hok2
    | go cs2 ch2 =>
      rw [hr2] at hok2
      dsimp only
      have hok3 := stepOk_trans hok1 hok2
      by_cases hch : (ch1 || ch2) = true
      · rw [if_pos hch]
        exact hok3
      · rw [if_neg hch]
        exact hok3

theorem dpWhileF_spec : ∀ (fuel : Nat) (pr : Finset Nat) (v : Nat)
    {cs : List (Finset Int)}, nzS cs → Kinv pr cs →
    SumOutOk pr cs (dpWhileF v fuel cs) := by
  intro fuel
  induction fuel with
  | zero =>
    intro pr v cs hnz hk
    exact stepOk_refl hnz hk
  | succ fuel ih =>
    intro pr v cs hnz hk
    rw [dpWhileF]
    have hpass := dpPass_spec pr v hnz hk
    cases hp : dpPass v cs with
    | ret b => rw [hp] at hpass; exact hpass
    | brk cs1 => rw [hp] at hpass; exact hpass
    | next cs1 =>
      rw [hp] at hpass
      dsimp only
      have h2 := ih pr v hpass.2.1 hpass.2.2.1
      cases hw : dpWhileF v fuel cs1 with
      | inl b => rw [hw] at h2; exact verdictOk_transfer hpass.1 h2
      | inr cs2 => rw [hw] at h2; exact stepOk_trans hpass h2


/-! ### Resolvents of the elimination step -/

theorem dpResolvent_subset (v : Nat) (c1 c2 : Finset Int) :
    dpResolvent v c1 c2 ⊆ c1 ∪ c2 := by
  intro x hx
  rcases Finset.mem_union.1 hx with h | h
  · exact Finset.mem_union_left _ (Finset.mem_of_mem_erase h)
  · exact Finset.mem_union_right _ (Finset.mem_of_mem_erase h)

theorem dpResolvent_sound {τ : Nat → Bool} {v : Nat} {c1 c2 : Finset Int}
    (hv : v ≠ 0) (hs1 : clauseSatF τ c1) (hs2 : clauseSatF τ c2) :
    clauseSatF τ (dpResolvent v c1 c2) := by
  have hv0 : (v:Int) ≠ 0 := by exact_mod_cast hv
  rcases hs1 with ⟨x, hx, hxh⟩
  by_cases hxv : x = (v:Int)
  · subst hxv
    rcases hs2 with ⟨y, hy, hyh⟩
    by_cases hyv : y = -(v:Int)
    · subst hyv
      exact absurd hxh ((litHolds_neg hv0).1 hyh)
    · exact ⟨y, Finset.mem_union_right _ (Finset.mem_erase.2 ⟨hyv, hy⟩), hyh⟩
  · exact ⟨x, Finset.mem_union_left _ (Finset.mem_erase.2 ⟨hxv, hx⟩), hxh⟩

theorem dpResolventsRaw_mem {v : Nat} {pos neg : List (Finset Int)} {r : Finset Int} :
    r ∈ dpResolventsRaw v pos neg ↔
      ∃ c1 ∈ pos, ∃ c2 ∈ neg, r = dpResolvent v c1 c2 ∧ ¬ IsTaut r := by
  induction pos with
  | nil => simp [dpResolventsRaw]
  | cons c1 rest ih =>
    rw [dpResolventsRaw]
    rw [List.mem_append, List.mem_filter, List.mem_map, ih]
    constructor
    · rintro (⟨⟨c2, hc2, rfl⟩, ht⟩ | ⟨c3, hc3, c2, hc2, rfl, ht⟩)
      · exact ⟨c1, List.mem_cons_self _ _, c2, hc2, rfl, by simpa using ht⟩
      · exact ⟨c3, List.mem_cons_of_mem _ hc3, c2, hc2, rfl, ht⟩
    · rintro ⟨c3, hc3, c2, hc2, rfl, ht⟩
      rcases List.mem_cons.1 hc3 with rfl | hc3
      · exact Or.inl ⟨⟨c2, hc2, rfl⟩, by simpa using ht⟩
      · exact Or.inr ⟨c3, hc3, c2, hc2, rfl, ht⟩

theorem dpResolvents_mem {v : Nat} {pos neg : List (Finset Int)} {r : Finset Int} :
    r ∈ dpResolvents v pos neg ↔
      ∃ c1 ∈ pos, ∃ c2 ∈ neg, r = dpResolvent v c1 c2 ∧ ¬ IsTaut r := by
  unfold dpResolvents
  rw [List.mem_dedup, dpResolventsRaw_mem]

/-! ### The variable-elimination lifting argument -/

theorem res_lift {τ : Nat → Bool} {v : Nat} {ds : List (Finset Int)}
    (hnz : nzS ds) (hv : v ≠ 0)
    (hfree : ∀ c ∈ ds, (v:Int) ∉ c → -(v:Int) ∉ c → clauseSatF τ c)
    (hres : ∀ c1 ∈ ds, ∀ c2 ∈ ds, (v:Int) ∈ c1 → -(v:Int) ∉ c1 → -(v:Int) ∈ c2 →
      (v:Int) ∉ c2 → ¬ IsTaut (dpResolvent v c1 c2) →
      clauseSatF τ (dpResolvent v c1 c2)) :
    ∃ b, formulaSatS (Function.update τ v b) ds := by
  have hvarne : ∀ {c : Finset Int}, c ∈ ds → (v:Int) ∉ c → -(v:Int) ∉ c →
      ∀ y ∈ c, litVar y ≠ v := by
    intro c _ hcv hcnv y hy he
    rcases litVar_cases he with rfl | rfl
    · exact hcv hy
    · exact hcnv hy
  by_cases hA : ∀ c1 ∈ ds, (v:Int) ∈ c1 → -(v:Int) ∉ c1 →
      clauseSatF τ (c1.erase (v:Int))
  · refine ⟨false, ?_⟩
    intro c hc
    by_cases hcnv : -(v:Int) ∈ c
    · exact ⟨-(v:Int), hcnv, litHolds_neg_coe_false (Function.update_same v false τ)⟩
    · by_cases hcv : (v:Int) ∈ c
      · rcases hA c hc hcv hcnv with ⟨y, hy, hyh⟩
        have hyc : y ∈ c := Finset.mem_of_mem_erase hy
        have hyv : litVar y ≠ v := by
          intro he
          rcases litVar_cases he with rfl | rfl
          · exact (Finset.mem_erase.1 hy).1 rfl
          · exact hcnv hyc
        refine ⟨y, hyc, ?_⟩
        show Function.update τ v false (litVar y) = litSign y
        rw [Function.update_noteq hyv]
        exact hyh
      · rcases hfree c hc hcv hcnv with ⟨y, hy, hyh⟩
        refine ⟨y, hy, ?_⟩
        show Function.update τ v false (litVar y) = litSign y
        rw [Function.update_noteq (hvarne hc hcv hcnv y hy)]
        exact hyh
  · push_neg at hA
    rcases hA with ⟨c1, hc1, hc1v, hc1nv, hc1ns⟩
    refine ⟨true, ?_⟩
    intro c hc
    by_cases hcv : (v:Int) ∈ c
    · exact ⟨(v:Int), hcv, litHolds_coe_true hv (Function.update_same v true τ)⟩
    · by_cases hcnv : -(v:Int) ∈ c
      · have hrsat : clauseSatF τ (dpResolvent v c1 c) := by
          by_cases hrt : IsTaut (dpResolvent v c1 c)
          · exact taut_sat (nzC_mono (dpResolvent_subset v c1 c)
              (nzC_union (hnz c1 hc1) (hnz c hc))) hrt
          · exact hres c1 hc1 c hc hc1v hc1nv hcnv hcv hrt
        rcases hrsat with ⟨y, hy, hyh⟩
        have hy2 : y ∈ c.erase (-(v:Int)) := by
          rcases Finset.mem_union.1 hy with h | h
          · exact absurd ⟨y, h, hyh⟩ hc1ns
          · exact h
        have hyc : y ∈ c := Finset.mem_of_mem_erase hy2
        have hyv : litVar y ≠ v := by
          intro he
          rcases litVar_cases he with rfl | rfl
          · exact hcv hyc
          · exact (Finset.mem_erase.1 hy2).1 rfl
        refine ⟨y, hyc, ?_⟩
        show Function.update τ v true (litVar y) = litSign y
        rw [Function.update_noteq hyv]
        exact hyh
      · rcases hfree c hc hcv hcnv with ⟨y, hy, hyh⟩
        refine ⟨y, hy, ?_⟩
        show Function.update τ v true (litVar y) = litSign y
        rw [Function.update_noteq (hvarne hc hcv hcnv y hy)]
        exact hyh

/-! ### `dp_eliminate` specification -/

theorem dp_eliminate_spec (pr : Finset Nat) {v : Nat} {cs : List (Finset Int)}
    (hnz : nzS cs) (hv : v ≠ 0) (hk : Kinv pr cs) :
    SumOutOk (insert v pr) cs (dp_eliminate v cs) := by
  have hv0 : (v:Int) ≠ 0 := by exact_mod_cast hv
  have hposm : ∀ c : Finset Int,
      c ∈ cs.filter (fun c => decide ((v:Int) ∈ c)) ↔ c ∈ cs ∧ (v:Int) ∈ c := by
    intro c
    rw [List.mem_filter]
    simp
  have hnegm : ∀ c : Finset Int,
      c ∈ cs.filter (fun c => decide (-(v:Int) ∈ c)) ↔ c ∈ cs ∧ -(v:Int) ∈ c := by
    intro c
    rw [List.mem_filter]
    simp
  have hwom : ∀ c : Finset Int,
      c ∈ cs.filter (fun c => decide ((v:Int) ∉ c ∧ -(v:Int) ∉ c)) ↔
        c ∈ cs ∧ (v:Int) ∉ c ∧ -(v:Int) ∉ c := by
    intro c
    rw [List.mem_filter]
    simp
  have hvarne : ∀ {c : Finset Int}, (v:Int) ∉ c → -(v:Int) ∉ c →
      ∀ y ∈ c, litVar y ≠ v := by
    intro c hcv hcnv y hy he
    rcases litVar_cases he with rfl | rfl
    · exact hcv hy
    · exact hcnv hy
  rw [dp_eliminate]
  by_cases hside : (cs.filter fun c => decide ((v:Int) ∈ c)) = [] ∨
      (cs.filter fun c => decide (-(v:Int) ∈ c)) = []
  · rw [if_pos hside]
    have hext : ∀ τ : Nat → Bool,
        formulaSatS τ (cs.filter fun c => decide ((v:Int) ∉ c ∧ -(v:Int) ∉ c)) →
        ∃ b, formulaSatS (Function.update τ v b) cs := by
      intro τ hτ
      by_cases hp0 : (cs.filter fun c => decide ((v:Int) ∈ c)) = []
      · refine ⟨false, ?_⟩
        intro c hc
        by_cases hcnv : -(v:Int) ∈ c
        · exact ⟨-(v:Int), hcnv, litHolds_neg_coe_false (Function.update_same v false τ)⟩
        · have hcv : (v:Int) ∉ c := by
            intro hcv
            have hmem : c ∈ (cs.filter fun c => decide ((v:Int) ∈ c)) :=
              (hposm c).2 ⟨hc, hcv⟩
            rw [hp0] at hmem
            cases hmem
          rcases hτ c ((hwom c).2 ⟨hc, hcv, hcnv⟩) with ⟨y, hy, hyh⟩
          refine ⟨y, hy, ?_⟩
          show Function.update τ v false (litVar y) = litSign y
          rw [Function.update_noteq (hvarne hcv hcnv y hy)]
          exact hyh
      · have hn0 : (cs.filter fun c => decide (-(v:Int) ∈ c)) = [] :=
          hside.resolve_left hp0
        refine ⟨true, ?_⟩
        intro c hc
        by_cases hcv : (v:Int) ∈ c
        · exact ⟨(v:Int), hcv, litHolds_coe_true hv (Function.update_same v true τ)⟩
        · have hcnv : -(v:Int) ∉ c := by
            intro hcnv
            have hmem : c ∈ (cs.filter fun c => decide (-(v:Int) ∈ c)) :=
              (hnegm c).2 ⟨hc, hcnv⟩
            rw [hn0] at hmem
            cases hmem
          rcases hτ c ((hwom c).2 ⟨hc, hcv, hcnv⟩) with ⟨y, hy, hyh⟩
          refine ⟨y, hy, ?_⟩
          show Function.update τ v true (litVar y) = litSign y
          rw [Function.update_noteq (hvarne hcv hcnv y hy)]
          exact hyh
    have hkstep : ∀ τ : Nat → Bool,
        formulaSatS τ (cleanPart (insert v pr)
          (cs.filter fun c => decide ((v:Int) ∉ c ∧ -(v:Int) ∉ c))) →
        ∃ b, formulaSatS (Function.update τ v b) (cleanPart pr cs) := by
      intro τ hτ
      by_cases hp0 : (cs.filter fun c => decide ((v:Int) ∈ c)) = []
      · refine ⟨false, ?_⟩
        intro c hc
        rcases mem_cleanPart.1 hc with ⟨hcm, hcl⟩
        by_cases hcnv : -(v:Int) ∈ c
        · exact ⟨-(v:Int), hcnv, litHolds_neg_coe_false (Function.update_same v false τ)⟩
        · have hcv : (v:Int) ∉ c := by
            intro hcv
            have hmem : c ∈ (cs.filter fun c => decide ((v:Int) ∈ c)) :=
              (hposm c).2 ⟨hcm, hcv⟩
            rw [hp0] at hmem
            cases hmem
          have hclean2 : CleanC (insert v pr) c := by
            intro l hl hmem
            rcases Finset.mem_insert.1 hmem with he | he
            · exact hvarne hcv hcnv l hl he
            · exact hcl l hl he
          rcases hτ c (mem_cleanPart.2 ⟨(hwom c).2 ⟨hcm, hcv, hcnv⟩, hclean2⟩)
            with ⟨y, hy, hyh⟩
          refine ⟨y, hy, ?_⟩
          show Function.update τ v false (litVar y) = litSign y
          rw [Function.update_noteq (hvarne hcv hcnv y hy)]
          exact hyh
      · have hn0 : (cs.filter fun c => decide (-(v:Int) ∈ c)) = [] :=
          hside.resolve_left hp0
        refine ⟨true, ?_⟩
        intro c hc
        rcases mem_cleanPart.1 hc with ⟨hcm, hcl⟩
        by_cases hcv : (v:Int) ∈ c
        · exact ⟨(v:Int), hcv, litHolds_coe_true hv (Function.update_same v true τ)⟩
        · have hcnv : -(v:Int) ∉ c := by
            intro hcnv
            have hmem : c ∈ (cs.filter fun c => decide (-(v:Int) ∈ c)) :=
              (hnegm c).2 ⟨hcm, hcnv⟩
            rw [hn0] at hmem
            cases hmem
          have hclean2 : CleanC (insert v pr) c := by
            intro l hl hmem
            rcases Finset.mem_insert.1 hmem with he | he
            · exact hvarne hcv hcnv l hl he
            · exact hcl l hl he
          rcases hτ c (mem_cleanPart.2 ⟨(hwom c).2 ⟨hcm, hcv, hcnv⟩, hclean2⟩)
            with ⟨y, hy, hyh⟩
          refine ⟨y, hy, ?_⟩
          show Function.update τ v true (litVar y) = litSign y
          rw [Function.update_noteq (hvarne hcv hcnv y hy)]
          exact hyh
    by_cases hany : ((cs.filter fun c => decide ((v:Int) ∉ c ∧ -(v:Int) ∉ c)).any
        fun c => decide (c = ∅)) = true
    · rw [if_pos hany]
      refine ⟨fun hb => Bool.noConfusion hb, fun _ => ?_⟩
      rintro ⟨τ, hτ⟩
      rcases List.any_eq_true.1 hany with ⟨c, hcm, hce⟩
      rw [decide_eq_true_eq] at hce
      subst hce
      rcases hτ _ ((hwom _).1 hcm).1 with ⟨y, hy, _⟩
      exact absurd hy (Finset.not_mem_empty _)
    · rw [if_neg hany]
      by_cases hwnil : (cs.filter fun c => decide ((v:Int) ∉ c ∧ -(v:Int) ∉ c)) = []
      · rw [if_pos hwnil]
        refine ⟨fun _ => ?_, fun hb => Bool.noConfusion hb⟩
        rcases hext (fun _ => true) (by rw [hwnil]; intro c hc; cases hc) with ⟨b, hb⟩
        exact ⟨_, hb⟩
      · rw [if_neg hwnil]
        refine ⟨⟨?_, ?_⟩, ?_, ?_, ?_⟩
        · rintro ⟨τ, hτ⟩
          exact ⟨τ, fun c hc => hτ c ((hwom c).1 hc).1⟩
        · rintro ⟨τ, hτ⟩
          rcases hext τ hτ with ⟨b, hb⟩
          exact ⟨_, hb⟩
        · intro c hc
          exact hnz c ((hwom c).1 hc).1
        · intro τ hτ
          rcases hkstep τ hτ with ⟨b, hb⟩
          rcases hk _ hb with ⟨σ, hσpr, hσ⟩
          refine ⟨σ, ?_, fun c hc => hσ c ((hwom c).1 hc).1⟩
          intro w hw
          rw [Finset.mem_insert] at hw
          push_neg at hw
          rw [hσpr w hw.2, Function.update_noteq hw.1]
        · intro w hw
          rcases mem_varsS.1 hw with ⟨c, hc, l, hl, rfl⟩
          exact mem_varsS.2 ⟨c, ((hwom c).1 hc).1, l, hl, rfl⟩
  · rw [if_neg hside]
    push_neg at hside
    have hallres : ∀ {r : Finset Int},
        r ∈ dpResolvents v (cs.filter fun c => decide ((v:Int) ∈ c))
          (cs.filter fun c => decide (-(v:Int) ∈ c)) →
        ∃ c1 ∈ cs, ∃ c2 ∈ cs, (v:Int) ∈ c1 ∧ -(v:Int) ∈ c2 ∧
          r = dpResolvent v c1 c2 ∧ ¬ IsTaut r := by
      intro r hr
      rcases dpResolvents_mem.1 hr with ⟨c1, hc1, c2, hc2, rfl, ht⟩
      exact ⟨c1, ((hposm c1).1 hc1).1, c2, ((hnegm c2).1 hc2).1,
        ((hposm c1).1 hc1).2, ((hnegm c2).1 hc2).2, rfl, ht⟩
    have hpairunsat : ∀ {c1 c2 : Finset Int}, c1 ∈ cs → c2 ∈ cs → (v:Int) ∈ c1 →
        -(v:Int) ∈ c2 → dpResolvent v c1 c2 = ∅ → ¬ SatS cs := by
      rintro c1 c2 hc1 hc2 hc1v hc2v hre ⟨τ, hτ⟩
      rcases Finset.union_eq_empty.1 hre with ⟨he1, he2⟩
      rcases hτ c1 hc1 with ⟨y, hy, hyh⟩
      have hy1 : y = (v:Int) := by
        by_contra hne
        exact Finset.not_mem_empty y (he1 ▸ Finset.mem_erase.2 ⟨hne, hy⟩)
      rcases hτ c2 hc2 with ⟨z, hz, hzh⟩
      have hz1 : z = -(v:Int) := by
        by_contra hne
        exact Finset.not_mem_empty z (he2 ▸ Finset.mem_erase.2 ⟨hne, hz⟩)
      subst hy1
      subst hz1
      exact (litHolds_neg hv0).1 hzh hyh
    have hfwd : ∀ τ : Nat → Bool, formulaSatS τ cs →
        formulaSatS τ ((cs.filter fun c => decide ((v:Int) ∉ c ∧ -(v:Int) ∉ c)) ++
          dpResolvents v (cs.filter fun c => decide ((v:Int) ∈ c))
            (cs.filter fun c => decide (-(v:Int) ∈ c))) := by
      intro τ hτ c hc
      rcases List.mem_append.1 hc with hc2 | hc2
      · exact hτ c ((hwom c).1 hc2).1
      · rcases hallres hc2 with ⟨c1, hc1, c2, hc2m, _, _, rfl, _⟩
        exact dpResolvent_sound hv (hτ c1 hc1) (hτ c2 hc2m)
    have hback : ∀ τ : Nat → Bool,
        formulaSatS τ ((cs.filter fun c => decide ((v:Int) ∉ c ∧ -(v:Int) ∉ c)) ++
          dpResolvents v (cs.filter fun c => decide ((v:Int) ∈ c))
            (cs.filter fun c => decide (-(v:Int) ∈ c))) →
        ∃ b, formulaSatS (Function.update τ v b) cs := by
      intro τ hτ
      refine res_lift hnz hv ?_ ?_
      · intro c hc hcv hcnv
        exact hτ c (List.mem_append.2 (Or.inl ((hwom c).2 ⟨hc, hcv, hcnv⟩)))
      · intro c1 hc1 c2 hc2 hc1v _ hc2v hc2nv hrt
        refine hτ _ (List.mem_append.2 (Or.inr (dpResolvents_mem.2
          ⟨c1, (hposm c1).2 ⟨hc1, hc1v⟩, c2, (hnegm c2).2 ⟨hc2, hc2v⟩, rfl, hrt⟩)))
    by_cases hpe : ((cs.filter fun c => decide ((v:Int) ∈ c)).any fun c1 =>
        (cs.filter fun c => decide (-(v:Int) ∈ c)).any fun c2 =>
          decide (dpResolvent v c1 c2 = ∅)) = true
    · rw [if_pos hpe]
      refine ⟨fun hb => Bool.noConfusion hb, fun _ => ?_⟩
      rcases List.any_eq_true.1 hpe with ⟨c1, hc1, hin⟩
      rcases List.any_eq_true.1 hin with ⟨c2, hc2, hre⟩
      rw [decide_eq_true_eq] at hre
      exact hpairunsat ((hposm c1).1 hc1).1 ((hnegm c2).1 hc2).1
        ((hposm c1).1 hc1).2 ((hnegm c2).1 hc2).2 hre
    · rw [if_neg hpe]
      by_cases hany : (((cs.filter fun c => decide ((v:Int) ∉ c ∧ -(v:Int) ∉ c)) ++
          dpResolvents v (cs.filter fun c => decide ((v:Int) ∈ c))
            (cs.filter fun c => decide (-(v:Int) ∈ c))).any
          fun c => decide (c = ∅)) = true
      · rw [if_pos hany]
        refine ⟨fun hb => Bool.noConfusion hb, fun _ => ?_⟩
        rcases List.any_eq_true.1 hany with ⟨c, hcm, hce⟩
        rw [decide_eq_true_eq] at hce
        subst hce
        rcases List.mem_append.1 hcm with hc2 | hc2
        · rintro ⟨τ, hτ⟩
          rcases hτ _ ((hwom _).1 hc2).1 with ⟨y, hy, _⟩
          exact absurd hy (Finset.not_mem_empty _)
        · rcases hallres hc2 with ⟨c1, hc1, c2, hc2m, hc1v, hc2v, hre, _⟩
          exact hpairunsat hc1 hc2m hc1v hc2v hre.symm
      · rw [if_neg hany]
        by_cases hnil : ((cs.filter fun c => decide ((v:Int) ∉ c ∧ -(v:Int) ∉ c)) ++
            dpResolvents v (cs.filter fun c => decide ((v:Int) ∈ c))
              (cs.filter fun c => decide (-(v:Int) ∈ c))) = []
        · rw [if_pos hnil]
          refine ⟨fun _ => ?_, fun hb => Bool.noConfusion hb⟩
          rcases hback (fun _ => true) (by rw [hnil]; intro c hc; cases hc) with ⟨b, hb⟩
          exact ⟨_, hb⟩
        · rw [if_neg hnil]
          refine ⟨⟨?_, ?_⟩, ?_, ?_, ?_⟩
          · rintro ⟨τ, hτ⟩
            exact ⟨τ, hfwd τ hτ⟩
          · rintro ⟨τ, hτ⟩
            rcases hback τ hτ with ⟨b, hb⟩
            exact ⟨_, hb⟩
          · intro c hc
            rcases List.mem_append.1 hc with hc2 | hc2
            · exact hnz c ((hwom c).1 hc2).1
            · rcases hallres hc2 with ⟨c1, hc1, c2, hc2m, _, _, rfl, _⟩
              exact nzC_mono (dpResolvent_subset v c1 c2)
                (nzC_union (hnz c1 hc1) (hnz c2 hc2m))
          · intro τ hτ
            have hstep : ∃ b, formulaSatS (Function.update τ v b) (cleanPart pr cs) := by
              refine res_lift (fun c hc => hnz c (mem_cleanPart.1 hc).1) hv ?_ ?_
              · intro c hc hcv hcnv
                rcases mem_cleanPart.1 hc with ⟨hcm, hcl⟩
                have hclean2 : CleanC (insert v pr) c := by
                  intro l hl hmem
                  rcases Finset.mem_insert.1 hmem with he | he
                  · exact hvarne hcv hcnv l hl he
                  · exact hcl l hl he
                exact hτ c (mem_cleanPart.2 ⟨List.mem_append.2
                  (Or.inl ((hwom c).2 ⟨hcm, hcv, hcnv⟩)), hclean2⟩)
              · intro c1 hc1 c2 hc2 hc1v hc1nv hc2v hc2nv hrt
                rcases mem_cleanPart.1 hc1 with ⟨hc1m, hc1cl⟩
                rcases mem_cleanPart.1 hc2 with ⟨hc2m, hc2cl⟩
                have hclean2 : CleanC (insert v pr) (dpResolvent v c1 c2) := by
                  intro l hl hmem
                  have hl2 := dpResolvent_subset v c1 c2 hl
                  rcases Finset.mem_insert.1 hmem with he | he
                  · rcases litVar_cases he with rfl | rfl
                    · rcases Finset.mem_union.1 hl with h | h
                      · exact (Finset.mem_erase.1 h).1 rfl
                      · exact hc2nv (Finset.mem_of_mem_erase h)
                    · rcases Finset.mem_union.1 hl with h | h
                      · exact hc1nv (Finset.mem_of_mem_erase h)
                      · exact (Finset.mem_erase.1 h).1 rfl
                  · rcases Finset.mem_union.1 hl2 with h | h
                    · exact hc1cl l h he
                    · exact hc2cl l h he
                refine hτ _ (mem_cleanPart.2 ⟨List.mem_append.2 (Or.inr
                  (dpResolvents_mem.2 ⟨c1, (hposm c1).2 ⟨hc1m, hc1v⟩, c2,
                    (hnegm c2).2 ⟨hc2m, hc2v⟩, rfl, hrt⟩)), hclean2⟩)
            rcases hstep with ⟨b, hb⟩
            rcases hk _ hb with ⟨σ, hσpr, hσ⟩
            refine ⟨σ, ?_, hfwd σ hσ⟩
            intro w hw
            rw [Finset.mem_insert] at hw
            push_neg at hw
            rw [hσpr w hw.2, Function.update_noteq hw.1]
          · intro w hw
            rcases mem_varsS.1 hw with ⟨c, hc, l, hl, rfl⟩
            rcases List.mem_append.1 hc with hc2 | hc2
            · exact mem_varsS.2 ⟨c, ((hwom c).1 hc2).1, l, hl, rfl⟩
            · rcases hallres hc2 with ⟨c1, hc1, c2, hc2m, _, _, rfl, _⟩
              rcases Finset.mem_union.1 (dpResolvent_subset v c1 c2 hl) with h | h
              · exact mem_varsS.2 ⟨c1, hc1, l, h, rfl⟩
              · exact mem_varsS.2 ⟨c2, hc2m, l, h, rfl⟩

/-! ### `_dp_process_variable` and the elimination loop -/

theorem sumOutOk_trans {pr pr2 : Finset Nat} {cs cs1 : List (Finset Int)}
    (h1 : StepOk pr cs cs1) {o : Bool ⊕ List (Finset Int)}
    (h2 : SumOutOk pr2 cs1 o) : SumOutOk pr2 cs o := by
  cases o with
  | inl b => exact verdictOk_transfer h1.1 h2
  | inr cs2 => exact stepOk_trans h1 h2

theorem kinv_insert_of_not_occurs {pr : Finset Nat} {v : Nat}
    {cs : List (Finset Int)} (hocc : ¬ varOccurs v cs) (hk : Kinv pr cs) :
    Kinv (insert v pr) cs := by
  have hcl : cleanPart (insert v pr) cs = cleanPart pr cs := by
    unfold cleanPart
    refine List.filter_congr ?_
    intro c hc
    have hiff : CleanC (insert v pr) c ↔ CleanC pr c := by
      constructor
      · intro h l hl hmem
        exact h l hl (Finset.mem_insert_of_mem hmem)
      · intro h l hl hmem
        rcases Finset.mem_insert.1 hmem with he | he
        · rcases litVar_cases he with rfl | rfl
          · exact hocc ⟨c, hc, Or.inl hl⟩
          · exact hocc ⟨c, hc, Or.inr hl⟩
        · exact h l hl he
    simp [hiff]
  intro τ hτ
  rw [hcl] at hτ
  rcases hk τ hτ with ⟨σ, hσpr, hσ⟩
  refine ⟨σ, ?_, hσ⟩
  intro w hw
  exact hσpr w (fun h => hw (Finset.mem_insert_of_mem h))

theorem satS_nil : SatS [] := ⟨fun _ => true, fun c hc => absurd hc (List.not_mem_nil c)⟩

theorem dpProcessVar_spec (pr : Finset Nat) {v : Nat} {cs : List (Finset Int)}
    (hnz : nzS cs) (hv : v ≠ 0) (hk : Kinv pr cs) :
    SumOutOk (insert v pr) cs (dpProcessVar v cs) := by
  rw [dpProcessVar]
  have hw := dpWhileF_spec (dpMeasure cs + 1) pr v hnz hk
  cases hfu : dpWhileF v (dpMeasure cs + 1) cs with
  | inl b =>
    rw [hfu] at hw
    exact hw
  | inr cs1 =>
    rw [hfu] at hw
    dsimp only
    by_cases hocc : varOccurs v cs1
    · rw [if_neg (fun h => h hocc)]
      by_cases hnil : cs1 = []
      · rw [if_pos hnil]
        refine ⟨fun _ => hw.1.2 ?_, fun hb => Bool.noConfusion hb⟩
        rw [hnil]
        exact satS_nil
      · rw [if_neg hnil]
        exact sumOutOk_trans hw (dp_eliminate_spec pr hw.2.1 hv hw.2.2.1)
    · rw [if_pos hocc]
      by_cases hnil : cs1 = []
      · rw [if_pos hnil]
        refine ⟨fun _ => hw.1.2 ?_, fun hb => Bool.noConfusion hb⟩
        rw [hnil]
        exact satS_nil
      · rw [if_neg hnil]
        exact ⟨hw.1, hw.2.1, kinv_insert_of_not_occurs hocc hw.2.2.1, hw.2.2.2⟩

/-! ### The variable-elimination loop and the whole DP solver -/

theorem dpLoop_spec : ∀ (vs : List Nat) (pr : Finset Nat)
    {cs : List (Finset Int)}, nzS cs → Kinv pr cs → (∀ u ∈ vs, u ≠ 0) →
    (∀ w ∈ varsS cs, w ∈ pr ∨ w ∈ vs) →
    (dpLoop vs cs = true ↔ SatS cs) := by
  intro vs
  induction vs with
  | nil =>
    intro pr cs hnz hk hvs hcov
    rw [dpLoop]
    by_cases hany : (cs.any fun c => decide (c = ∅)) = true
    · rw [if_pos hany]
      refine ⟨fun hb => Bool.noConfusion hb, fun hs => ?_⟩
      rcases hs with ⟨τ, hτ⟩
      rcases List.any_eq_true.1 hany with ⟨c, hcm, hce⟩
      rw [decide_eq_true_eq] at hce
      subst hce
      rcases hτ _ hcm with ⟨y, hy, _⟩
      exact absurd hy (Finset.not_mem_empty _)
    · rw [if_neg hany]
      have hnoempty : ∀ c ∈ cs, c ≠ ∅ := by
        intro c hc hce
        exact hany (List.any_eq_true.2 ⟨c, hc, decide_eq_true hce⟩)
      have hclean : cleanPart pr cs = [] := by
        unfold cleanPart
        rw [List.filter_eq_nil_iff]
        intro c hc
        rcases Finset.nonempty_iff_ne_empty.2 (hnoempty c hc) with ⟨l, hl⟩
        have hlv : litVar l ∈ pr := by
          rcases hcov (litVar l) (mem_varsS.2 ⟨c, hc, l, hl, rfl⟩) with h | h
          · exact h
          · cases h
        simp only [decide_eq_true_eq]
        intro hcl
        exact hcl l hl hlv
      have hcsat : formulaSatS (fun _ => true) (cleanPart pr cs) := by
        rw [hclean]
        intro c hc
        cases hc
      refine ⟨fun _ => ?_, fun _ => rfl⟩
      rcases hk (fun _ => true) hcsat with ⟨σ, _, hσ⟩
      exact ⟨σ, hσ⟩
  | cons v vs ih =>
    intro pr cs hnz hk hvs hcov
    rw [dpLoop]
    have hp := dpProcessVar_spec pr hnz (hvs v (List.mem_cons_self v vs)) hk
    cases hpv : dpProcessVar v cs with
    | inl b =>
      rw [hpv] at hp
      dsimp only
      cases b with
      | true => exact ⟨fun _ => hp.1 rfl, fun _ => rfl⟩
      | false => exact ⟨fun hb => Bool.noConfusion hb, fun hs => absurd hs (hp.2 rfl)⟩
    | inr cs1 =>
      rw [hpv] at hp
      dsimp only
      have hcov1 : ∀ w ∈ varsS cs1, w ∈ insert v pr ∨ w ∈ vs := by
        intro w hw
        rcases hcov w (hp.2.2.2 hw) with h | h
        · exact Or.inl (Finset.mem_insert_of_mem h)
        · rcases List.mem_cons.1 h with rfl | h2
          · exact Or.inl (Finset.mem_insert_self w pr)
          · exact Or.inr h2
      rw [ih (insert v pr) hp.2.1 hp.2.2.1
        (fun u hu => hvs u (List.mem_cons_of_mem v hu)) hcov1]
      exact hp.1.symm

theorem kinv_empty (cs : List (Finset Int)) : Kinv ∅ cs := by
  intro τ hτ
  refine ⟨τ, fun _ _ => rfl, ?_⟩
  intro c hc
  refine hτ c (mem_cleanPart.2 ⟨hc, ?_⟩)
  intro l hl hmem
  exact absurd hmem (Finset.not_mem_empty _)

theorem satS_map_toFinset {F : List (List Int)} :
    SatS (F.map List.toFinset) ↔ Satisfiable F := by
  constructor
  · rintro ⟨τ, hτ⟩
    refine ⟨τ, ?_⟩
    intro c hc
    rcases hτ c.toFinset (List.mem_map_of_mem List.toFinset hc) with ⟨l, hl, hlh⟩
    exact ⟨l, List.mem_toFinset.1 hl, hlh⟩
  · rintro ⟨τ, hτ⟩
    refine ⟨τ, ?_⟩
    intro c hc
    rcases List.mem_map.1 hc with ⟨c0, hc0, rfl⟩
    rcases hτ c0 hc0 with ⟨l, hl, hlh⟩
    exact ⟨l, List.mem_toFinset.2 hl, hlh⟩

theorem dp_original_solver_correct (F : List (List Int))
    (hnz : ∀ c ∈ F, ∀ l ∈ c, l ≠ 0) :
    (dp_original_solver F = true ↔ Satisfiable F) := by
  rw [dp_original_solver]
  by_cases hF : F = []
  · rw [if_pos hF]
    subst hF
    exact ⟨fun _ => ⟨fun _ => true, fun c hc => absurd hc (List.not_mem_nil c)⟩,
      fun _ => rfl⟩
  · rw [if_neg hF]
    by_cases hany : ((F.map List.toFinset).any fun c => decide (c = ∅)) = true
    · rw [if_pos hany]
      refine ⟨fun hb => Bool.noConfusion hb, fun hs => ?_⟩
      rcases List.any_eq_true.1 hany with ⟨c, hcm, hce⟩
      rw [decide_eq_true_eq] at hce
      rcases List.mem_map.1 hcm with ⟨c0, hc0, rfl⟩
      rcases satS_map_toFinset.2 hs with ⟨τ, hτ⟩
      rcases hτ c0.toFinset hcm with ⟨y, hy, _⟩
      rw [hce] at hy
      exact absurd hy (Finset.not_mem_empty _)
    · rw [if_neg hany]
      have hnzS : nzS (F.map List.toFinset) := by
        intro c hc l hl
        rcases List.mem_map.1 hc with ⟨c0, hc0, rfl⟩
        exact hnz c0 hc0 l (List.mem_toFinset.1 hl)
      have hvs : ∀ u ∈ (varsS (F.map List.toFinset)).sort (· ≤ ·), u ≠ 0 := by
        intro u hu hu0
        rcases mem_varsS.1 ((Finset.mem_sort (· ≤ ·)).1 hu) with ⟨c, hc, l, hl, hlv⟩
        have hl0 : l = 0 := by
          have h2 : l.natAbs = 0 := hu0 ▸ hlv
          exact Int.natAbs_eq_zero.1 h2
        exact hnzS c hc l hl hl0
      have hcov : ∀ w ∈ varsS (F.map List.toFinset),
          w ∈ (∅ : Finset Nat) ∨ w ∈ (varsS (F.map List.toFinset)).sort (· ≤ ·) := by
        intro w hw
        exact Or.inr ((Finset.mem_sort (· ≤ ·)).2 hw)
      rw [dpLoop_spec ((varsS (F.map List.toFinset)).sort (· ≤ ·)) ∅ hnzS
        (kinv_empty _) hvs hcov]
      exact satS_map_toFinset

/-! ### Concrete evaluations of the Davis-Putnam solver on `[[0]]`

The variable listings inside the solver go through `Finset.sort`, which the
kernel does not unfold; the sorted listings of the singleton sets appearing
in this run are supplied explicitly. -/

theorem findUnitDP_zero : findUnitDP [({0} : Finset Int)] = some 0 := by
  rw [findUnitDP, if_pos (by decide), Finset.sort_singleton]
  rfl

theorem findPure_zero : findPure [({0} : Finset Int)] = none := by
  rw [findPure, (by decide : varsS [({0} : Finset Int)] = {0}), Finset.sort_singleton,
    findPureFrom, if_neg (by decide), if_neg (by decide), findPureFrom]

theorem dpPass_zero : dpPass 0 [({0} : Finset Int)] = .brk [({0} : Finset Int)] := by
  rw [dpPass, findUnitDP_zero, if_pos (by decide)]
  dsimp only
  rw [findPure_zero]
  rfl

theorem dpProcessVar_zero : dpProcessVar 0 [({0} : Finset Int)] = .inl false := by
  rw [dpProcessVar, (by decide : dpMeasure [({0} : Finset Int)] + 1 = 2 + 1),
    dpWhileF, dpPass_zero]
  rfl

theorem dp_solver_zero : dp_original_solver [[0]] = false := by
  rw [dp_original_solver, if_neg (by decide), if_neg (by decide),
    (by decide : ([[0]] : List (List Int)).map List.toFinset = [({0} : Finset Int)]),
    (by decide : varsS [({0} : Finset Int)] = {0}), Finset.sort_singleton,
    dpLoop, dpProcessVar_zero]

theorem bool_eq_of_iff {a b : Bool} (h : a = true ↔ b = true) : a = b := by
  cases a <;> cases b <;> simp_all

/-! ### The claims -/

/-- Claim C1: on every clause list whose literals are all nonzero, the three
decision entry points return the same boolean verdict, and that verdict is
`true` exactly when the formula is satisfiable. -/
theorem claim_C1_solvers_agree (F : List (List Int))
    (hnz : ∀ c ∈ F, ∀ l ∈ c, l ≠ 0) :
    ((dpll_solver F).1 = dp_original_solver F ∧
      dp_original_solver F = resolution_solver F) ∧
    ((dpll_solver F).1 = true ↔ Satisfiable F) := by
  have h1 := dpll_solver_correct F
  have h2 := dp_original_solver_correct F hnz
  have h3 := resolution_solver_correct F hnz
  exact ⟨⟨bool_eq_of_iff (h1.trans h2.symm), bool_eq_of_iff (h2.trans h3.symm)⟩, h1⟩

theorem claim_C1_agree_witness :
    (((dpll_solver [[1]]).1 = dp_original_solver [[1]] ∧
      dp_original_solver [[1]] = resolution_solver [[1]]) ∧
      ((dpll_solver [[1]]).1 = true ↔ Satisfiable [[1]])) :=
  claim_C1_solvers_agree [[1]] (by decide)

/-- Claim C2: when `dpll_solver` answers SAT with assignment `A`, every input
clause holds a literal whose variable `A` assigns with agreeing sign, so any
total valuation extending `A` satisfies every original clause. -/
theorem claim_C2_dpll_assignment {F : List (List Int)} {A : Assignment}
    (h : dpll_solver F = (true, A)) :
    (∀ c ∈ F, ∃ l ∈ c, lookupA A (litVar l) = some (litSign l)) ∧
      ∀ τ, AgreesWith τ A → formulaSatL τ F :=
  dpll_sat_assignment h

theorem claim_C2_assignment_witness :
    (∀ c ∈ [[(1 : Int)]], ∃ l ∈ c, lookupA [(1, true)] (litVar l) = some (litSign l)) ∧
      ∀ τ, AgreesWith τ [(1, true)] → formulaSatL τ [[(1 : Int)]] :=
  claim_C2_dpll_assignment (by decide)

/-- Claim C3 (corrected): no solver rejects a literal of magnitude 0 — none
of the three functions validates its input.  Each returns an ordinary
verdict computed over the literal 0, and on `[[0]]` those verdicts even
disagree (`dpll_solver` says SAT, `dp_original_solver` says UNSAT). -/
theorem claim_C3_no_rejection :
    (dpll_solver [[0]]).1 = true ∧ dp_original_solver [[0]] = false ∧
      resolution_solver [[0]] = true ∧
      (dpll_solver [[0]]).1 ≠ dp_original_solver [[0]] := by
  refine ⟨by decide, dp_solver_zero, by decide, ?_⟩
  rw [dp_solver_zero]
  decide

/-- Claim C3, counterexample to the claimed rejection: on the input `[[0]]`
each solver returns a normal SAT/UNSAT verdict (with `dpll_solver` even
producing the assignment `0 ↦ false`), instead of signalling an error. -/
theorem claim_C3_counterexample :
    dpll_solver [[0]] = (true, [(0, false)]) ∧ dp_original_solver [[0]] = false ∧
      resolution_solver [[0]] = true :=
  ⟨by decide, dp_solver_zero, by decide⟩

/-- Claim C4: all three solvers answer SAT on the empty clause list
(`dpll_solver` with the empty assignment), and all three answer UNSAT on any
clause list containing an empty clause, via the entry checks that run before
any propagation or resolution work. -/
theorem claim_C4_degenerate (F : List (List Int)) (h : [] ∈ F) :
    (dpll_solver [] = (true, []) ∧ dp_original_solver [] = true ∧
      resolution_solver [] = true) ∧
    ((dpll_solver F).1 = false ∧ dp_original_solver F = false ∧
      resolution_solver F = false) := by
  have hF : F ≠ [] := by
    rintro rfl
    cases h
  refine ⟨⟨rfl, rfl, rfl⟩, ?_, ?_, ?_⟩
  · rw [dpll_solver, if_neg hF, if_pos (List.any_eq_true.2 ⟨[], h, rfl⟩)]
  · rw [dp_original_solver, if_neg hF,
      if_pos (List.any_eq_true.2 ⟨∅, List.mem_map.2 ⟨[], h, rfl⟩, by decide⟩)]
  · rw [resolution_solver, if_neg hF, if_pos ?_]
    unfold to_frozenset_clauses
    rw [List.mem_toFinset]
    exact List.mem_map.2 ⟨[], h, rfl⟩

theorem claim_C4_degenerate_witness :
    (dpll_solver [] = (true, []) ∧ dp_original_solver [] = true ∧
      resolution_solver [] = true) ∧
    ((dpll_solver [[1], []]).1 = false ∧ dp_original_solver [[1], []] = false ∧
      resolution_solver [[1], []] = false) :=
  claim_C4_degenerate [[1], []] (by decide)

/-- Claim C5: the DPLL recursion returns a value whenever its fuel exceeds
the number of unassigned variables of the clause set — in particular with the
fuel `dpll_solver` passes — and the resolution saturation loop returns a
value with the fuel `resolution_solver` passes, because every working clause
stays inside the powerset of the finite literal universe. -/
theorem claim_C5_termination (F cs : List (List Int)) (asg : Assignment)
    (fuel : Nat) (h1 : (unassignedVars asg cs).card < fuel) :
    (dpll_recursive fuel cs asg).isSome ∧
      (dpll_recursive ((varsF F).card + 1) F []).isSome ∧
      (resolutionLoopF (2 ^ (litUniverse (to_frozenset_clauses F)).card + 1)
        (to_frozenset_clauses F)).isSome := by
  refine ⟨dpll_rec_total fuel cs asg h1, dpll_rec_total _ F [] ?_, ?_⟩
  · have hsub : unassignedVars [] F ⊆ varsF F := Finset.filter_subset _ _
    have := Finset.card_le_card hsub
    omega
  · refine resolutionLoopF_total _ _ (litUniverse (to_frozenset_clauses F)) ?_ ?_
    · intro c hc x hx
      unfold litUniverse
      have h2 : id c ≤ (to_frozenset_clauses F).sup id := Finset.le_sup hc
      exact h2 hx
    · rw [Finset.card_powerset]
      omega

theorem claim_C5_termination_witness :
    (dpll_recursive 2 [[1]] []).isSome ∧
      (dpll_recursive ((varsF [[1]]).card + 1) [[1]] []).isSome ∧
      (resolutionLoopF (2 ^ (litUniverse (to_frozenset_clauses [[1]])).card + 1)
        (to_frozenset_clauses [[1]])).isSome :=
  claim_C5_termination [[1]] [[1]] [] 2 (by decide)

/-- Claim C6: every successful run of the propagation engine returns a
triple in which the assignment extends the input one with bindings only for
formula variables, a conflict means no valuation compatible with the input
assignment satisfies the clauses, and a conflict-free result is a
simplification fixed point with no unit clause that preserves models in both
directions (the input assignment itself is untouched: the engine returns a
new mapping). -/
theorem claim_C6_propagation (asg : Assignment) (cs : List (List Int))
    (r : List (List Int) × Assignment × Bool)
    (h : dpll_apply_assignment_and_propagate asg cs = some r) :
    Extends asg r.2.1 ∧
      (∀ v b, lookupA r.2.1 v = some b → lookupA asg v = some b ∨ v ∈ varsF cs) ∧
      (r.2.2 = true → ∀ τ, AgreesWith τ asg → ¬ formulaSatL τ cs) ∧
      (r.2.2 = false →
        (simplifyPass r.2.1 r.1 = some r.1 ∧ findUnit r.1 = none) ∧
        (∀ τ, AgreesWith τ asg → formulaSatL τ cs →
          AgreesWith τ r.2.1 ∧ formulaSatL τ r.1) ∧
        (∀ τ, AgreesWith τ r.2.1 → formulaSatL τ r.1 → formulaSatL τ cs)) := by
  rw [dpll_apply_assignment_and_propagate] at h
  have hs := propagateF_spec _ asg cs r h
  exact ⟨hs.ext, hs.domain, hs.conflict_unsat,
    fun hc => ⟨hs.fixpoint hc, fun τ h1 h2 => hs.forward hc τ h1 h2, hs.backward hc⟩⟩

theorem claim_C6_propagation_witness :
    Extends [] [(1, true)] ∧
      (∀ v b, lookupA [(1, true)] v = some b → lookupA [] v = some b ∨ v ∈ varsF [[1]]) ∧
      (false = true → ∀ τ, AgreesWith τ [] → ¬ formulaSatL τ [[1]]) ∧
      (false = false →
        (simplifyPass [(1, true)] [] = some [] ∧ findUnit [] = none) ∧
        (∀ τ, AgreesWith τ [] → formulaSatL τ [[1]] →
          AgreesWith τ [(1, true)] ∧ formulaSatL τ []) ∧
        (∀ τ, AgreesWith τ [(1, true)] → formulaSatL τ [] → formulaSatL τ [[1]])) :=
  claim_C6_propagation [] [[1]] ([], [(1, true)], false) (by decide)

/-- Claim C7: when DPLL branches it tries the variable set to `true` first,
and a satisfying true-branch short-circuits the search, so its assignment is
returned unchanged; in particular `dpll_solver [[1,2],[1,-2]]` answers SAT
with the assignment mapping variable 1 to `true`. -/
theorem claim_C7_true_branch (fuel : Nat) (cs act : List (List Int))
    (asg asg2 A : Assignment) (v : Nat)
    (hap : dpll_apply_assignment_and_propagate asg cs = some (act, asg2, false))
    (hact : act ≠ [])
    (hch : dpll_choose_unassigned_variable asg2 act = some v)
    (h1 : dpll_recursive fuel cs (insertA asg2 v true) = some (true, A)) :
    dpll_recursive (fuel + 1) cs asg = some (true, A) ∧
      dpll_solver [[1, 2], [1, -2]] = (true, [(1, true)]) :=
  ⟨dpll_true_branch_first hap hact hch h1, by decide⟩

theorem claim_C7_true_branch_witness :
    dpll_recursive (1 + 1) [[1, 2], [1, -2]] [] = some (true, [(1, true)]) ∧
      dpll_solver [[1, 2], [1, -2]] = (true, [(1, true)]) :=
  claim_C7_true_branch 1 [[1, 2], [1, -2]] [[1, 2], [1, -2]] [] [] [(1, true)] 1
    (by decide) (by decide) (by decide) (by decide)

/-- Claim C8 (corrected): after a resolution-elimination step the working
list is the clauses without the variable followed by the deduplicated
non-tautological resolvents — only the resolvent block is deduplicated, so
the resulting list can still contain duplicate clauses (see the
counterexample). -/
theorem claim_C8_elimination_shape (v : Nat) (cs cs2 : List (Finset Int))
    (hpos : (cs.filter fun c => decide ((v : Int) ∈ c)) ≠ [])
    (hneg : (cs.filter fun c => decide (-(v : Int) ∈ c)) ≠ [])
    (h : dp_eliminate v cs = .inr cs2) :
    cs2 = (cs.filter fun c => decide ((v : Int) ∉ c ∧ -(v : Int) ∉ c)) ++
        dpResolvents v (cs.filter fun c => decide ((v : Int) ∈ c))
          (cs.filter fun c => decide (-(v : Int) ∈ c)) ∧
      (dpResolvents v (cs.filter fun c => decide ((v : Int) ∈ c))
          (cs.filter fun c => decide (-(v : Int) ∈ c))).Nodup ∧
      ∀ r ∈ dpResolvents v (cs.filter fun c => decide ((v : Int) ∈ c))
          (cs.filter fun c => decide (-(v : Int) ∈ c)),
        (∃ c1 ∈ cs, (v : Int) ∈ c1 ∧ ∃ c2 ∈ cs, -(v : Int) ∈ c2 ∧
          r = dpResolvent v c1 c2) ∧ ¬ IsTaut r := by
  rw [dp_eliminate, if_neg (by push_neg; exact ⟨hpos, hneg⟩)] at h
  by_cases hpe : ((cs.filter fun c => decide ((v : Int) ∈ c)).any fun c1 =>
      (cs.filter fun c => decide (-(v : Int) ∈ c)).any fun c2 =>
        decide (dpResolvent v c1 c2 = ∅)) = true
  · rw [if_pos hpe] at h
    cases h
  · rw [if_neg hpe] at h
    by_cases hany : (((cs.filter fun c => decide ((v : Int) ∉ c ∧ -(v : Int) ∉ c)) ++
        dpResolvents v (cs.filter fun c => decide ((v : Int) ∈ c))
          (cs.filter fun c => decide (-(v : Int) ∈ c))).any
        fun c => decide (c = ∅)) = true
    · rw [if_pos hany] at h
      cases h
    · rw [if_neg hany] at h
      by_cases hnil : ((cs.filter fun c => decide ((v : Int) ∉ c ∧ -(v : Int) ∉ c)) ++
          dpResolvents v (cs.filter fun c => decide ((v : Int) ∈ c))
            (cs.filter fun c => decide (-(v : Int) ∈ c))) = []
      · rw [if_pos hnil] at h
        cases h
      · rw [if_neg hnil] at h
        injection h with h2
        refine ⟨h2.symm, List.nodup_dedup _, ?_⟩
        intro r hr
        rcases dpResolvents_mem.1 hr with ⟨c1, hc1, c2, hc2, rfl, ht⟩
        rw [List.mem_filter] at hc1 hc2
        rw [decide_eq_true_eq] at hc1 hc2
        exact ⟨⟨c1, hc1.1, hc1.2, c2, hc2.1, hc2.2, rfl⟩, ht⟩

theorem claim_C8_shape_witness :
    ([({3, 4} : Finset Int), {3, 4}, {2}, {-2}] : List (Finset Int)) =
        (([({1, 2} : Finset Int), {-1, 2}, {1, -2}, {-1, -2}, {3, 4}, {3, 4}].filter
            fun c => decide ((1 : Int) ∉ c ∧ -(1 : Int) ∉ c)) ++
          dpResolvents 1
            ([({1, 2} : Finset Int), {-1, 2}, {1, -2}, {-1, -2}, {3, 4}, {3, 4}].filter
              fun c => decide ((1 : Int) ∈ c))
            ([({1, 2} : Finset Int), {-1, 2}, {1, -2}, {-1, -2}, {3, 4}, {3, 4}].filter
              fun c => decide (-(1 : Int) ∈ c))) ∧
      (dpResolvents 1
          ([({1, 2} : Finset Int), {-1, 2}, {1, -2}, {-1, -2}, {3, 4}, {3, 4}].filter
            fun c => decide ((1 : Int) ∈ c))
          ([({1, 2} : Finset Int), {-1, 2}, {1, -2}, {-1, -2}, {3, 4}, {3, 4}].filter
            fun c => decide (-(1 : Int) ∈ c))).Nodup ∧
      ∀ r ∈ dpResolvents 1
          ([({1, 2} : Finset Int), {-1, 2}, {1, -2}, {-1, -2}, {3, 4}, {3, 4}].filter
            fun c => decide ((1 : Int) ∈ c))
          ([({1, 2} : Finset Int), {-1, 2}, {1, -2}, {-1, -2}, {3, 4}, {3, 4}].filter
            fun c => decide (-(1 : Int) ∈ c)),
        (∃ c1 ∈ [({1, 2} : Finset Int), {-1, 2}, {1, -2}, {-1, -2}, {3, 4}, {3, 4}],
          (1 : Int) ∈ c1 ∧
          ∃ c2 ∈ [({1, 2} : Finset Int), {-1, 2}, {1, -2}, {-1, -2}, {3, 4}, {3, 4}],
            -(1 : Int) ∈ c2 ∧ r = dpResolvent 1 c1 c2) ∧ ¬ IsTaut r :=
  claim_C8_elimination_shape 1 [{1, 2}, {-1, 2}, {1, -2}, {-1, -2}, {3, 4}, {3, 4}]
    [{3, 4}, {3, 4}, {2}, {-2}] (by decide) (by decide) (by decide)

/-- Claim C8, counterexample to the claimed full deduplication: eliminating
variable 1 from a list holding the duplicated variable-free clause `{3,4}`
keeps both copies, so the resulting working list has duplicate clauses. -/
theorem claim_C8_counterexample :
    dp_eliminate 1 [({1, 2} : Finset Int), {-1, 2}, {1, -2}, {-1, -2}, {3, 4}, {3, 4}] =
        .inr [({3, 4} : Finset Int), {3, 4}, {2}, {-2}] ∧
      ¬ ([({3, 4} : Finset Int), {3, 4}, {2}, {-2}] : List (Finset Int)).Nodup :=
  ⟨by decide, by decide⟩

/-- Claim C9: no tautological resolvent is ever retained — every member of
`resolve_two_clauses` (the resolution solver) and every member of the
deduplicated resolvent list of the Davis-Putnam elimination step is free of
complementary literal pairs. -/
theorem claim_C9_no_tautology (c1 c2 r s : Finset Int) (v : Nat)
    (pos neg : List (Finset Int)) (h1 : r ∈ resolve_two_clauses c1 c2)
    (h2 : s ∈ dpResolvents v pos neg) :
    (∀ l ∈ r, -l ∉ r) ∧ (∀ l ∈ s, -l ∉ s) := by
  constructor
  · have ht : ¬ IsTaut r := (mem_resolve.1 h1).1
    intro l hl hneg
    exact ht ⟨l, hl, hneg⟩
  · rcases dpResolvents_mem.1 h2 with ⟨a, _, b, _, rfl, ht⟩
    intro l hl hneg
    exact ht ⟨l, hl, hneg⟩

theorem claim_C9_no_tautology_witness :
    (∀ l ∈ ({2, 3} : Finset Int), -l ∉ ({2, 3} : Finset Int)) ∧
      (∀ l ∈ ({2, 3} : Finset Int), -l ∉ ({2, 3} : Finset Int)) :=
  claim_C9_no_tautology {1, 2} {-1, 3} {2, 3} {2, 3} 1 [{1, 2}] [{-1, 3}]
    (by decide) (by decide)

/-- Claim C10: every variable bound by the assignment `dpll_solver` returns
is the magnitude of some literal of some input clause — the witness never
mentions a variable absent from the input. -/
theorem claim_C10_assignment_vars (F : List (List Int)) (v : Nat) (b : Bool)
    (h : lookupA (dpll_solver F).2 v = some b) : v ∈ varsF F :=
  dpll_assignment_vars h

theorem claim_C10_assignment_vars_witness : 1 ∈ varsF [[1]] :=
  claim_C10_assignment_vars [[1]] 1 true (by decide)

end SatRepo
